import Mathlib

/-!
Verification of the rider-scheduling model compiler.

The development shallowly embeds the two source modules:

* the generic mixed-integer linear-program layer (namespace `lp`):
  typed variables, sparse linear expressions keyed by variable name,
  bounded constraints, saturation, the solve wrapper and the LP text
  exporter;

* the scheduling model builder (namespace `scheduling`): input
  validation, shift-candidate enumeration, constraint families,
  objective assembly, and the solution decoder.

JavaScript numbers are modelled as rationals (`ℚ`); the only
number-to-text rendering exercised by the theorems is the integral
case, which matches JavaScript digit-for-digit.  A thrown JavaScript
`Error` is modelled as `Except.error` carrying the optional message.
The external solver engine is modelled as an oracle that either
reports "no solution" or provides a value for every variable name.
-/

/-- Model of a thrown JavaScript `Error`: the optional message passed to the
constructor (`new Error(msg)` with `msg` possibly `undefined`). -/
abbrev JsError := Option String

namespace lp

/-- Auxiliary payload attached to candidate variables by the scheduling
module: the courier index and the inclusive slot range. -/
structure AuxData where
  rider : ℕ
  t1 : ℕ
  t2 : ℕ
deriving DecidableEq

/-- The `type` field of a variable: `'continuous' | 'integer'`. -/
inductive VarType where
  | continuous
  | integer
deriving DecidableEq

/-- A variable of a linear program (class `Var` of the source).  Two
JavaScript instances are identified exactly when all their fields agree;
the scheduling builder never creates two distinct instances with equal
fields. -/
structure Var where
  type : VarType
  name : String
  lowerBound : Option ℚ := none
  upperBound : Option ℚ := none
  auxData : Option AuxData := none
deriving DecidableEq

/-- Whether the domain of the variable is ℝ (`Var.isReal`). -/
def Var.isReal (v : Var) : Bool :=
  v.type = VarType.continuous

/-- Whether the domain of the variable is {0, 1} (`Var.isBool`). -/
def Var.isBool (v : Var) : Bool :=
  !v.isReal && v.lowerBound = some 0 && v.upperBound = some 1

/-- Whether the domain of the variable is ℕ (`Var.isInt`). -/
def Var.isInt (v : Var) : Bool :=
  !v.isReal && !v.isBool

/-- Constructor `new RealVar(name, lowerBound?, upperBound?)`. -/
def RealVar (name : String) (lowerBound upperBound : Option ℚ) : Var :=
  { type := VarType.continuous, name, lowerBound, upperBound }

/-- Constructor `new IntVar(name, lowerBound?, upperBound?)`. -/
def IntVar (name : String) (lowerBound upperBound : Option ℚ) : Var :=
  { type := VarType.integer, name, lowerBound, upperBound }

/-- Constructor `new BoolVar(name)`: an integer variable bounded to [0, 1]. -/
def BoolVar (name : String) : Var :=
  IntVar name (some 0) (some 1)

/-- A linear expression over mixed-integer variables (class `LinExpr`).
The JavaScript object keeps two records keyed by variable name
(`keys : name → Var`, `values : name → number`) whose key set is
enumerated in insertion order; this is modelled as the association list
of `(variable, coefficient)` pairs in that order.  A `Record` cannot
hold two entries with the same key, so well-formed expressions have
pairwise distinct names (`LinExpr.WF` below). -/
structure LinExpr where
  terms : List (Var × ℚ)
deriving DecidableEq

/-- A freshly constructed, empty linear expression. -/
def LinExpr.empty : LinExpr := ⟨[]⟩

/-- The representation invariant of the backing JavaScript `Record`s:
entry names are pairwise distinct.  Every expression reachable through
the class API satisfies it. -/
def LinExpr.WF (e : LinExpr) : Prop :=
  (e.terms.map fun p => p.1.name).Nodup

/-- Update-or-append at the entry whose name matches: the JavaScript
assignments `keys[v.name] = v; values[v.name] = n` keep an existing
key's position and append a new key at the end. -/
def setCoeffList : List (Var × ℚ) → Var → ℚ → List (Var × ℚ)
  | [], v, c => [(v, c)]
  | p :: rest, v, c =>
    if p.1.name = v.name then (v, c) :: rest else p :: setCoeffList rest v c

/-- Method `LinExpr.setCoefficient(v, n)`.  `checkVar` throws
`Error("Mismatching variable named " + name)` when another variable
instance already occupies the name (`keys[v.name] && keys[v.name] !== v`);
otherwise the entry is written. -/
def LinExpr.setCoefficient (e : LinExpr) (v : Var) (c : ℚ) : Except JsError LinExpr :=
  if ∀ p ∈ e.terms, p.1.name = v.name → p.1 = v then
    .ok ⟨setCoeffList e.terms v c⟩
  else
    .error (some ("Mismatching variable named " ++ v.name))

/-- Method `LinExpr.getVarCoefficients()`: all `(var, coeff)` pairs in key
order. -/
def LinExpr.getVarCoefficients (e : LinExpr) : List (Var × ℚ) :=
  e.terms

/-- The coefficient stored under a name (the `values[name]` record read). -/
def LinExpr.lookupCoeff (e : LinExpr) (n : String) : Option ℚ :=
  (e.terms.find? fun p => p.1.name == n).map fun p => p.2

/-- A linear constraint (class `Constraint extends LinExpr`): an
expression plus a display name and optional bounds. -/
structure Constraint where
  name : String
  lowerBound : Option ℚ := none
  upperBound : Option ℚ := none
  expr : LinExpr := LinExpr.empty
deriving DecidableEq

/-- Method `Constraint.setCoefficient`, inherited from `LinExpr`. -/
def Constraint.setCoefficient (con : Constraint) (v : Var) (c : ℚ) :
    Except JsError Constraint :=
  (con.expr.setCoefficient v c).map fun e => { con with expr := e }

/-- Rendering of a JavaScript number.  Integral values render exactly as
in JavaScript ("5", "-3"); non-integral values are abstracted as
"num/den" (JavaScript would print a decimal expansion — no theorem in
this file exercises that case). -/
def numStr (q : ℚ) : String :=
  if q.den = 1 then q.num.repr else q.num.repr ++ "/" ++ (q.den : ℤ).repr

/-- The `Array.prototype.join(sep)` of a list of strings. -/
def joinSep (sep : String) : List String → String
  | [] => ""
  | [s] => s
  | s :: rest => s ++ sep ++ joinSep sep rest

/-- Method `LinExpr.toString()`: LP-format rendering of the terms.
Index 0 gets no join token; a negative coefficient renders as `"- "`,
a later nonnegative one as `"+ "`; the absolute coefficient is omitted
when it equals 1; the rendered terms are joined with `" "`. -/
def LinExpr.render (e : LinExpr) : String :=
  joinSep " " (e.terms.enum.map fun q =>
    let i := q.1
    let v := q.2.1
    let c := q.2.2
    let join := if i = 0 then "" else "+ "
    let sign := if c < 0 then "- " else join
    let coeff := if |c| = 1 then "" else numStr |c| ++ " "
    sign ++ coeff ++ v.name)

/-- Method `Constraint.toString()`: the expression wrapped in the
optional `lower <= ` prefix and ` <= upper` suffix. -/
def Constraint.render (con : Constraint) : String :=
  let r := con.expr.render
  let r := match con.lowerBound with
    | some lb => numStr lb ++ " <= " ++ r
    | none => r
  match con.upperBound with
  | some ub => r ++ " <= " ++ numStr ub
  | none => r

/-- Method `Constraint.toLP()`: prefix the name when it is nonempty
(JavaScript truthiness of the string). -/
def Constraint.toLP (con : Constraint) : String :=
  if con.name = "" then con.render else con.name ++ ": " ++ con.render

/-- Method `Var.toConstraint()`: the bound constraint `lower <= v <= upper`
named `c[name]`.  Setting a coefficient on a fresh constraint cannot
collide, so the result is pure. -/
def Var.toConstraint (v : Var) : Constraint :=
  { name := "c[" ++ v.name ++ "]"
    lowerBound := v.lowerBound
    upperBound := v.upperBound
    expr := ⟨[(v, 1)]⟩ }

/-- Function `saturate(objective, constraints)`: a fresh expression that
first receives every variable of every constraint with coefficient 0 and
is then overlaid with the objective's own terms. -/
def saturate (objective : LinExpr) (constraints : List Constraint) :
    Except JsError LinExpr := do
  let newObjective ← constraints.foldlM
    (fun acc con => con.expr.getVarCoefficients.foldlM
      (fun (acc2 : LinExpr) p => acc2.setCoefficient p.1 0) acc)
    LinExpr.empty
  objective.getVarCoefficients.foldlM
    (fun (acc : LinExpr) p => acc.setCoefficient p.1 p.2) newObjective

/-- Function `minimize(objective, constraints)`, with the external
`LinearOptimizationService` engine abstracted as `oracle`: `none` models
`!solution.isValid()` (infeasible / unbounded / timeout), and a value
function models `solution.getVariableValue`.  On success the result is
an expression giving a value to every variable of the saturated
objective, in that order. -/
def minimize (oracle : Option (String → ℚ)) (objective : LinExpr)
    (constraints : List Constraint) : Except JsError (Option LinExpr) := do
  let newObjective ← saturate objective constraints
  match oracle with
  | none => pure none
  | some value =>
    let result ← newObjective.getVarCoefficients.foldlM
      (fun (acc : LinExpr) p => acc.setCoefficient p.1 (value p.1.name))
      LinExpr.empty
    pure (some result)

/-- Function `exportAsLP(objective, constraints)`: the LP-format text. -/
def exportAsLP (objective : LinExpr) (constraints : List Constraint) :
    Except JsError String := do
  let newObjective ← saturate objective constraints
  let vars := newObjective.getVarCoefficients.map fun p => p.1
  let binVars := vars.filter fun v => v.isBool
  let intVars := vars.filter fun v => v.isInt
  let constrainedVars := (vars.filter fun v => !v.isBool).filter fun v =>
    v.lowerBound.isSome || v.upperBound.isSome
  let c := constrainedVars.map Var.toConstraint ++ constraints
  let footer :=
    (if binVars.isEmpty then "" else
      "bin " ++ joinSep ", " (binVars.map fun v => v.name) ++ ";\n") ++
    (if intVars.isEmpty then "" else
      "int " ++ joinSep ", " (intVars.map fun v => v.name) ++ ";\n")
  pure ("minimize: " ++ objective.render ++ ";\n" ++
    String.join (c.map fun con => con.toLP ++ ";\n") ++ "\n" ++ footer)

end lp

namespace scheduling

open lp

/-- Helper `assert(condition, msg?)` of the scheduling module.  Every call
site in `makeLP` omits `msg`, so a failing assertion throws
`Error(undefined)`: an error with no message. -/
def assert (condition : Bool) : Except JsError Unit :=
  if condition then .ok () else .error none

/-- The model produced by `makeLP`: the data captured by the returned
`solve` / `export` closures (`objective`, `constraints`) together with
the grid dimensions used by `solve` (`guaranteed.length` rows by
`expected.length` columns). -/
structure LP where
  objective : LinExpr
  constraints : List Constraint
  numRiders : ℕ
  numTimeSlices : ℕ
deriving DecidableEq

/-- Name of the candidate variable: `a[${rider}][${t1}..${t2}]`. -/
def candName (rider t1 t2 : ℕ) : String :=
  "a[" ++ Nat.repr rider ++ "][" ++ Nat.repr t1 ++ ".." ++ Nat.repr t2 ++ "]"

/-- Name of the per-courier time variable: `time[${rider}]`. -/
def timeName (rider : ℕ) : String :=
  "time[" ++ Nat.repr rider ++ "]"

/-- Name of the constraint `timeCounted[${rider}]`. -/
def timeCountedName (rider : ℕ) : String :=
  "timeCounted[" ++ Nat.repr rider ++ "]"

/-- Name of the constraint `enough[${t}]`. -/
def enoughName (t : ℕ) : String :=
  "enough[" ++ Nat.repr t ++ "]"

/-- Name of the constraint `enough[${type}][${t}]`. -/
def enoughTypeName (ty : String) (t : ℕ) : String :=
  "enough[" ++ ty ++ "][" ++ Nat.repr t ++ "]"

/-- Name of the constraint `disjoint[${rider}][${t}]`. -/
def disjointName (rider t : ℕ) : String :=
  "disjoint[" ++ Nat.repr rider ++ "][" ++ Nat.repr t ++ "]"

/-- The candidate variable created for a triple: `new lp.BoolVar(...)`
with `v.auxData = { rider, t1, t2 }`. -/
def candVarOf (a : AuxData) : Var :=
  { BoolVar (candName a.rider a.t1 a.t2) with auxData := some a }

/-- The continuous time variable of a courier:
`new lp.RealVar('time[r]', guaranteed[r])`. -/
def timeVarOf (guaranteed : List ℚ) (rider : ℕ) : Var :=
  RealVar (timeName rider) (some (guaranteed.getD rider 0)) none

/-- The read `available[t][rider]`; out-of-range reads yield `undefined`,
which is falsy, hence the `false` defaults. -/
def availAt (available : List (List Bool)) (t rider : ℕ) : Bool :=
  (available.getD t []).getD rider false

/-- The read `duration[t]` (always in range where used). -/
def durAt (duration : List ℚ) (t : ℕ) : ℚ :=
  duration.getD t 0

/-- The mutable state of `makeLP`'s construction phase: the objective
under construction, the four constraint families, and the running
candidate counter `timeCoefficient`. -/
structure GState where
  objective : LinExpr
  timeCounted : List Constraint
  haveEnoughRiders : List (Option Constraint)
  haveEnoughRidersOfType : List (String × List (Option Constraint))
  disjointAllocations : List (List (Option Constraint))
  timeCoefficient : ℕ

/-- Placeholder constraint for out-of-range list reads; never hit on the
index ranges the loops use. -/
def defCon : Constraint := { name := "" }

/-- The optional-chaining call `c?.setCoefficient(v, n)`: skipped when the
slot holds `undefined`. -/
def setCoeffOpt (oc : Option Constraint) (v : Var) (c : ℚ) :
    Except JsError (Option Constraint) :=
  match oc with
  | none => .ok none
  | some con => (con.setCoefficient v c).map some

/-- The statement `arr[t]?.setCoefficient(v, n)` on an array of optional
constraints (mutation written back at index `t`). -/
def setCoeffAt (l : List (Option Constraint)) (t : ℕ) (v : Var) (c : ℚ) :
    Except JsError (List (Option Constraint)) :=
  (setCoeffOpt (l.getD t none) v c).map fun oc => l.set t oc

/-- The statement `record[key][t]?.setCoefficient(v, n)` on the
type-indexed record of constraint arrays.  A missing key would be a
JavaScript `TypeError` (indexing `undefined`); the validation phase
guarantees the key is present. -/
def updateAssoc (l : List (String × List (Option Constraint))) (key : String)
    (t : ℕ) (v : Var) (c : ℚ) :
    Except JsError (List (String × List (Option Constraint))) :=
  match l with
  | [] => .error none
  | (k, arr) :: rest =>
    if k = key then (setCoeffAt arr t v c).map fun arr2 => (k, arr2) :: rest
    else (updateAssoc rest key t v c).map fun rest2 => (k, arr) :: rest2

/-- The inner statement block `for (let t = t1; t <= t2; t += 1) { ... }`
of the candidate loop, registering candidate `v` in `enough[t]`,
`enough[type][t]` and `disjoint[rider][t]`; `fuel` counts the remaining
iterations `t2 + 1 - t`. -/
def slotLoop (riderTy : String) (rider : ℕ) (v : Var) :
    ℕ → ℕ → GState → Except JsError GState
  | 0, _, st => .ok st
  | fuel + 1, t, st => do
    let enough ← setCoeffAt st.haveEnoughRiders t v 1
    let enoughTy ← updateAssoc st.haveEnoughRidersOfType riderTy t v 1
    let disj ← setCoeffAt (st.disjointAllocations.getD rider []) t v 1
    slotLoop riderTy rider v fuel (t + 1)
      { st with haveEnoughRiders := enough, haveEnoughRidersOfType := enoughTy,
                disjointAllocations := st.disjointAllocations.set rider disj }

/-- The body of `if (d >= minDuration) { ... }`: create the candidate
variable, give it objective coefficient 1, coefficient `-d` in
`timeCounted[rider]`, register it over the covered slots, and bump
`timeCoefficient`. -/
def addCandidate (riderType : List String) (rider t1 t2 : ℕ) (d : ℚ)
    (st : GState) : Except JsError GState := do
  let v := candVarOf ⟨rider, t1, t2⟩
  let obj ← st.objective.setCoefficient v 1
  let tc ← (st.timeCounted.getD rider defCon).setCoefficient v (-d)
  let st := { st with objective := obj, timeCounted := st.timeCounted.set rider tc }
  let st ← slotLoop (riderType.getD rider "") rider v (t2 + 1 - t1) t1 st
  .ok { st with timeCoefficient := st.timeCoefficient + 1 }

/-- The loop `for (let t2 = t1; t2 < numTimeSlices && available[t2][rider];
t2 += 1)` accumulating `d += duration[t2]`; `fuel` counts the remaining
slots `numTimeSlices - t2`, so `fuel = 0` is the bound check `t2 < T`. -/
def t2Loop (duration : List ℚ) (available : List (List Bool)) (minDuration : ℚ)
    (riderType : List String) (rider t1 : ℕ) :
    ℕ → ℕ → ℚ → GState → Except JsError GState
  | 0, _, _, st => .ok st
  | fuel + 1, t2, d, st =>
    if availAt available t2 rider then do
      let d := d + durAt duration t2
      let st ← if minDuration ≤ d then addCandidate riderType rider t1 t2 d st else .ok st
      t2Loop duration available minDuration riderType rider t1 fuel (t2 + 1) d st
    else .ok st

/-- The loop `for (let t1 = 0; t1 < numTimeSlices; t1 += 1)`. -/
def t1Loop (duration : List ℚ) (available : List (List Bool)) (minDuration : ℚ)
    (riderType : List String) (numTimeSlices rider : ℕ) :
    ℕ → ℕ → GState → Except JsError GState
  | 0, _, st => .ok st
  | fuel + 1, t1, st => do
    let st ← t2Loop duration available minDuration riderType rider t1
      (numTimeSlices - t1) t1 0 st
    t1Loop duration available minDuration riderType numTimeSlices rider fuel (t1 + 1) st

/-- The loop `for (let rider = 0; rider < numRiders; rider += 1)` of the
candidate-enumeration phase. -/
def riderLoop (duration : List ℚ) (available : List (List Bool)) (minDuration : ℚ)
    (riderType : List String) (numTimeSlices : ℕ) :
    ℕ → ℕ → GState → Except JsError GState
  | 0, _, st => .ok st
  | fuel + 1, rider, st => do
    let st ← t1Loop duration available minDuration riderType numTimeSlices rider
      numTimeSlices 0 st
    riderLoop duration available minDuration riderType numTimeSlices fuel (rider + 1) st

/-- The second `for (let rider = 0; ...)` loop: create `time[rider]` with
lower bound `guaranteed[rider]`, objective coefficient `timeCoefficient`
(read after the candidate loops, passed here as `k`), and coefficient 1
in `timeCounted[rider]`. -/
def timeLoop (guaranteed : List ℚ) (k : ℚ) :
    ℕ → ℕ → GState → Except JsError GState
  | 0, _, st => .ok st
  | fuel + 1, rider, st => do
    let v := timeVarOf guaranteed rider
    let obj ← st.objective.setCoefficient v k
    let tc ← (st.timeCounted.getD rider defCon).setCoefficient v 1
    timeLoop guaranteed k fuel (rider + 1)
      { st with objective := obj, timeCounted := st.timeCounted.set rider tc }

/-- The conjunction of the ten `assert` conditions at the top of `makeLP`,
in source order. -/
def validInputB (duration expected : List ℚ)
    (expectedOfType : List (String × List ℚ)) (riderType : List String)
    (available : List (List Bool)) (guaranteed : List ℚ) : Bool :=
  let numRiders := guaranteed.length
  let numTimeSlices := expected.length
  let types := expectedOfType.map fun p => p.1
  (duration.length == numTimeSlices) &&
  (expected.length == numTimeSlices) &&
  (types.all fun ty => ((expectedOfType.lookup ty).getD []).length == numTimeSlices) &&
  (riderType.length == numRiders) &&
  (available.length == numTimeSlices) &&
  (available.all fun a => a.length == numRiders) &&
  (guaranteed.length == numRiders) &&
  (duration.all fun d => decide (0 ≤ d)) &&
  (expected.all fun count => decide (0 ≤ count) && decide (count ≤ (numRiders : ℚ))) &&
  (riderType.all fun ty => (expectedOfType.lookup ty).isSome)

/-- Function `makeLP`: validate the input shapes, build the constraint
skeletons, enumerate candidates, add the time variables, and assemble
the ordered constraint list.  `expectedOfType` models the JavaScript
record as its key-ordered entry list. -/
def makeLP (duration expected : List ℚ) (expectedOfType : List (String × List ℚ))
    (riderType : List String) (available : List (List Bool)) (guaranteed : List ℚ)
    (minDuration : ℚ) : Except JsError LP := do
  let numRiders := guaranteed.length
  let numTimeSlices := expected.length
  let types := expectedOfType.map fun p => p.1
  assert (duration.length == numTimeSlices)
  assert (expected.length == numTimeSlices)
  assert (types.all fun ty => ((expectedOfType.lookup ty).getD []).length == numTimeSlices)
  assert (riderType.length == numRiders)
  assert (available.length == numTimeSlices)
  assert (available.all fun a => a.length == numRiders)
  assert (guaranteed.length == numRiders)
  assert (duration.all fun d => decide (0 ≤ d))
  assert (expected.all fun count => decide (0 ≤ count) && decide (count ≤ (numRiders : ℚ)))
  assert (riderType.all fun ty => (expectedOfType.lookup ty).isSome)
  let st0 : GState := {
    objective := LinExpr.empty
    timeCounted := (List.range numRiders).map fun rider =>
      { name := timeCountedName rider, lowerBound := some 0 }
    haveEnoughRiders := expected.enum.map fun q =>
      if q.2 = 0 then none else some { name := enoughName q.1, lowerBound := some q.2 }
    haveEnoughRidersOfType := expectedOfType.map fun p =>
      (p.1, p.2.enum.map fun q =>
        if q.2 = 0 then none
        else some { name := enoughTypeName p.1 q.1, lowerBound := some q.2 })
    disjointAllocations := (List.range numRiders).map fun rider =>
      expected.enum.map fun q =>
        if availAt available q.1 rider then
          some { name := disjointName rider q.1, upperBound := some 1 }
        else none
    timeCoefficient := 0 }
  let st ← riderLoop duration available minDuration riderType numTimeSlices
    numRiders 0 st0
  let st ← timeLoop guaranteed (st.timeCoefficient : ℚ) numRiders 0 st
  let constraints := st.timeCounted
    ++ st.haveEnoughRiders.filterMap id
    ++ (types.flatMap fun ty =>
        ((st.haveEnoughRidersOfType.lookup ty).getD []).filterMap id)
    ++ st.disjointAllocations.flatMap fun row => row.filterMap id
  .ok { objective := st.objective, constraints := constraints,
        numRiders := numRiders, numTimeSlices := numTimeSlices }

/-- The inner write loop of the decoder:
`for (let t = t1; t <= t2; t += 1) assignment[rider][t] = true` applied
to one row. -/
def setTrueRange (row : List Bool) (t1 t2 : ℕ) : List Bool :=
  (List.range' t1 (t2 + 1 - t1)).foldl (fun r t => r.set t true) row

/-- The decoding phase of `solve`: start from an all-`false`
`numRiders × numTimeSlices` grid and mark the covered range of every
candidate variable (`v.auxData` set) whose solution value exceeds 0.5.
The source writes `assignment[rider][t]` directly; for every solution the
oracle can return those indices are inside the grid, and the embedding's
`List.set` is a no-op outside it. -/
def decode (numRiders numTimeSlices : ℕ) (solution : LinExpr) : List (List Bool) :=
  solution.getVarCoefficients.foldl
    (fun assignment p =>
      match p.1.auxData with
      | some a =>
        if (1 : ℚ)/2 < p.2 then
          assignment.set a.rider (setTrueRange (assignment.getD a.rider []) a.t1 a.t2)
        else assignment
      | none => assignment)
    (List.replicate numRiders (List.replicate numTimeSlices false))

/-- The `solve` closure returned by `makeLP`: run the solver on the
captured model and decode, or report the absent result (`undefined`)
when the oracle finds no solution. -/
def runSolve (model : LP) (oracle : Option (String → ℚ)) :
    Except JsError (Option (List (List Bool))) := do
  match ← minimize oracle model.objective model.constraints with
  | none => .ok none
  | some solution => .ok (some (decode model.numRiders model.numTimeSlices solution))

end scheduling

namespace scheduling

open lp

/-- Pure specification of the inner `t2` loop: starting at slot `t2` with
accumulated duration `d` and `fuel` slots remaining before the horizon,
the list of endpoints (paired with their accumulated durations) at which
a candidate materializes. -/
def enumFrom (duration : List ℚ) (available : List (List Bool)) (minDuration : ℚ)
    (rider : ℕ) : ℕ → ℕ → ℚ → List (ℕ × ℚ)
  | 0, _, _ => []
  | fuel + 1, t2, d =>
    if availAt available t2 rider then
      let d2 := d + durAt duration t2
      (if minDuration ≤ d2 then [(t2, d2)] else []) ++
        enumFrom duration available minDuration rider fuel (t2 + 1) d2
    else []

/-- Pure specification of the `t1` loop: all candidates of one courier with
start slot ranging over the remaining `fuel` slots from `t1`. -/
def candsFromT1 (duration : List ℚ) (available : List (List Bool)) (minDuration : ℚ)
    (numTimeSlices rider : ℕ) : ℕ → ℕ → List (AuxData × ℚ)
  | 0, _ => []
  | fuel + 1, t1 =>
    ((enumFrom duration available minDuration rider (numTimeSlices - t1) t1 0).map
      fun q => ((⟨rider, t1, q.1⟩ : AuxData), q.2)) ++
    candsFromT1 duration available minDuration numTimeSlices rider fuel (t1 + 1)

/-- Pure specification of the courier loop: all candidates of the couriers
with index ranging over the remaining `fuel` couriers from `rider`. -/
def candsFromRider (duration : List ℚ) (available : List (List Bool)) (minDuration : ℚ)
    (numTimeSlices : ℕ) : ℕ → ℕ → List (AuxData × ℚ)
  | 0, _ => []
  | fuel + 1, rider =>
    candsFromT1 duration available minDuration numTimeSlices rider numTimeSlices 0 ++
    candsFromRider duration available minDuration numTimeSlices fuel (rider + 1)

/-- All shift candidates of an instance, paired with their accumulated
durations, in the creation order of `makeLP`. -/
def allCandidates (duration : List ℚ) (available : List (List Bool)) (minDuration : ℚ)
    (numRiders numTimeSlices : ℕ) : List (AuxData × ℚ) :=
  candsFromRider duration available minDuration numTimeSlices numRiders 0

/-- The total duration `Σ duration[t1..t2]` of an inclusive slot range. -/
def sumDur (duration : List ℚ) (t1 t2 : ℕ) : ℚ :=
  ((List.range' t1 (t2 + 1 - t1)).map (durAt duration)).sum

/-- The spec-side characterization of a shift candidate: a triple whose
range lies inside the horizon, whose courier is available at every
covered slot, and whose total duration reaches the minimum. -/
def IsCandidate (duration : List ℚ) (available : List (List Bool)) (minDuration : ℚ)
    (numRiders numTimeSlices : ℕ) (a : AuxData) : Prop :=
  a.rider < numRiders ∧ a.t1 ≤ a.t2 ∧ a.t2 < numTimeSlices ∧
  (∀ t, a.t1 ≤ t → t ≤ a.t2 → availAt available t a.rider = true) ∧
  minDuration ≤ sumDur duration a.t1 a.t2

/-- Value of a linear expression under a valuation of the variable names. -/
def evalExpr (σ : String → ℚ) (e : LinExpr) : ℚ :=
  (e.terms.map fun p => p.2 * σ p.1.name).sum

/-- Whether a valuation satisfies a constraint's bounds. -/
def satConB (σ : String → ℚ) (con : Constraint) : Bool :=
  (con.lowerBound.all fun lb => decide (lb ≤ evalExpr σ con.expr)) &&
  (con.upperBound.all fun ub => decide (evalExpr σ con.expr ≤ ub))

/-- Whether a valuation respects a variable's own bounds. -/
def varOKB (σ : String → ℚ) (v : Var) : Bool :=
  (v.lowerBound.all fun lb => decide (lb ≤ σ v.name)) &&
  (v.upperBound.all fun ub => decide (σ v.name ≤ ub))

/-- Every variable referenced by the model (objective and constraints). -/
def lpVars (model : LP) : List Var :=
  model.objective.terms.map (fun p => p.1) ++
    model.constraints.flatMap fun con => con.expr.terms.map fun p => p.1

/-- Whether a valuation is achievable under the model: it satisfies every
constraint and every variable bound. -/
def satLPB (σ : String → ℚ) (model : LP) : Bool :=
  model.constraints.all (satConB σ) && (lpVars model).all (varOKB σ)

/-- The candidate entries of the objective: exactly the terms whose
variable carries `auxData`. -/
def candTerms (model : LP) : List (Var × ℚ) :=
  model.objective.terms.filter fun p => p.1.auxData.isSome

/-- The number `K` of candidate variables of the model. -/
def candCount (model : LP) : ℕ :=
  (candTerms model).length

/-- The sum of the unit-weighted candidate terms under a valuation. -/
def candSum (σ : String → ℚ) (model : LP) : ℚ :=
  ((candTerms model).map fun p => σ p.1.name).sum

end scheduling

namespace lp

/-- Rendering of one term following the spec's words: the coefficient is
omitted when its absolute value is 1 (the bare minus of a negative unit
coefficient is produced by the sign tokens of `specExprStr`). -/
def specTerm (p : Var × ℚ) : String :=
  (if |p.2| = 1 then "" else numStr |p.2| ++ " ") ++ p.1.name

/-- Rendering of an expression following the spec's words: successive
terms are joined with single-space `+`/`-` tokens and the first term
carries no leading join token (a negative first coefficient still
renders as a bare minus, as the bare-minus rule requires). -/
def specExprStr (e : LinExpr) : String :=
  match e.terms with
  | [] => ""
  | p :: rest =>
    (if p.2 < 0 then "- " else "") ++ specTerm p ++
      String.join (rest.map fun q => (if q.2 < 0 then " - " else " + ") ++ specTerm q)

/-- Constraint line following the spec's words:
`<name>: [<lower> <=] <terms> [<= <upper>]`. -/
def specConstraintLine (con : Constraint) : String :=
  con.name ++ ": " ++
  (match con.lowerBound with | some lb => numStr lb ++ " <= " | none => "") ++
  specExprStr con.expr ++
  (match con.upperBound with | some ub => " <= " ++ numStr ub | none => "")

/-- The exported text following the spec's words: a `minimize: <terms>;`
line; one `...;` line per constraint, the generated bound constraints of
the bounded non-boolean variables first, then the given constraints; a
blank separator line; finally the optional `bin`/`int` declaration lines
for the boolean and integer variables. -/
def specExportStr (objective : LinExpr) (constraints : List Constraint)
    (sat : LinExpr) : String :=
  let vars := sat.terms.map fun p => p.1
  let lines :=
    ["minimize: " ++ specExprStr objective ++ ";"] ++
    ((vars.filter fun v => !v.isBool && (v.lowerBound.isSome || v.upperBound.isSome)).map
      fun v => specConstraintLine v.toConstraint ++ ";") ++
    (constraints.map fun con => specConstraintLine con ++ ";") ++
    [""] ++
    (let bin := vars.filter fun v => v.isBool
     if bin.isEmpty then [] else
       ["bin " ++ joinSep ", " (bin.map fun v => v.name) ++ ";"]) ++
    (let ints := vars.filter fun v => v.isInt
     if ints.isEmpty then [] else
       ["int " ++ joinSep ", " (ints.map fun v => v.name) ++ ";"])
  String.join (lines.map fun s => s ++ "\n")

/-- One rendered term of `LinExpr.render`, by enumerated index. -/
def renderItem (q : ℕ × (Var × ℚ)) : String :=
  let i := q.1
  let v := q.2.1
  let c := q.2.2
  let join := if i = 0 then "" else "+ "
  let sign := if c < 0 then "- " else join
  let coeff := if |c| = 1 then "" else numStr |c| ++ " "
  sign ++ coeff ++ v.name

def specTailItem (q : Var × ℚ) : String :=
  (if q.2 < 0 then " - " else " + ") ++ specTerm q

end lp

namespace scheduling

open lp

/-- Durations of the one-slot end-to-end instance. -/
def durC3 : List ℚ := [1]

/-- Demand of the one-slot end-to-end instance. -/
def expC3 : List ℚ := [1]

/-- Demand-by-type of the one-slot end-to-end instance. -/
def eotC3 : List (String × List ℚ) := [("bike", [0])]

/-- Courier types of the one-slot end-to-end instance. -/
def rtC3 : List String := ["bike"]

/-- Availability of the one-slot end-to-end instance. -/
def avC3 : List (List Bool) := [[true]]

/-- Guaranteed hours of the one-slot end-to-end instance. -/
def guC3 : List ℚ := [0]

/-- The single candidate variable of the one-slot instance. -/
def vA3 : Var :=
  ⟨VarType.integer, "a[0][0..0]", some 0, some 1, some ⟨0, 0, 0⟩⟩

/-- The single time variable of the one-slot instance. -/
def vT3 : Var :=
  ⟨VarType.continuous, "time[0]", some 0, none, none⟩

/-- The model `makeLP` builds for the one-slot instance. -/
def lpC3 : LP :=
  { objective := ⟨[(vA3, 1), (vT3, 1)]⟩
    constraints :=
      [ ⟨"timeCounted[0]", some 0, none, ⟨[(vA3, -1), (vT3, 1)]⟩⟩,
        ⟨"enough[0]", some 1, none, ⟨[(vA3, 1)]⟩⟩,
        ⟨"disjoint[0][0]", none, some 1, ⟨[(vA3, 1)]⟩⟩ ]
    numRiders := 1
    numTimeSlices := 1 }

/-- The valuation assigning 1 to every variable; on the one-slot instance
it assigns the candidate and sets `time[0] = 1`. -/
def oneVal : String → ℚ := fun _ => 1

end scheduling

/-- The decimal digit characters of a natural number, most significant
digit first; `Nat.toDigits 10` produces exactly this list. -/
def decChars (n : ℕ) : List Char :=
  if n = 0 then ['0'] else ((Nat.digits 10 n).map Nat.digitChar).reverse

namespace scheduling

open lp

/-- Read of one cell of the decoded assignment grid. -/
def gridAt (g : List (List Bool)) (rider t : ℕ) : Bool :=
  (g.getD rider []).getD t false

/-- One iteration of the decoder's `for (const [v, c] of ...)` loop, as a
named function (the fold body of `decode`). -/
def decodeStep (assignment : List (List Bool)) (p : Var × ℚ) : List (List Bool) :=
  match p.1.auxData with
  | some a =>
    if (1 : ℚ)/2 < p.2 then
      assignment.set a.rider (setTrueRange (assignment.getD a.rider []) a.t1 a.t2)
    else assignment
  | none => assignment

end scheduling

namespace lp

/-- Every variable referenced by a constraint list, in order. -/
def constraintVars (constraints : List Constraint) : List Var :=
  constraints.flatMap fun con => con.expr.terms.map fun p => p.1

end lp

/-! ### Decimal digit strings

`makeLP` keys its variables by interpolated strings such as
`a[3][2..5]`; the collision check of `setCoefficient` compares these
names, so the construction lemmas need the names to be injective in the
indices.  This section relates `Nat.repr` to `Nat.digits` and derives
the required injectivity facts. -/

theorem digitChar_zero : Nat.digitChar 0 = '0' := rfl

theorem decChars_zero : decChars 0 = ['0'] := by simp [decChars]

theorem decChars_lt10 {n : ℕ} (h0 : n ≠ 0) (h : n < 10) :
    decChars n = [Nat.digitChar n] := by
  rw [decChars, if_neg h0,
    Nat.digits_def' (by norm_num : (1 : ℕ) < 10) (Nat.pos_of_ne_zero h0),
    Nat.mod_eq_of_lt h, Nat.div_eq_of_lt h]
  simp

theorem decChars_ge10 {n : ℕ} (h : 10 ≤ n) :
    decChars n = decChars (n / 10) ++ [Nat.digitChar (n % 10)] := by
  have h0 : n ≠ 0 := by omega
  have h10 : n / 10 ≠ 0 := by
    have : 1 ≤ n / 10 := (Nat.le_div_iff_mul_le (by norm_num)).mpr (by omega)
    omega
  rw [decChars, if_neg h0,
    Nat.digits_def' (by norm_num : (1 : ℕ) < 10) (Nat.pos_of_ne_zero h0)]
  rw [decChars, if_neg h10]
  simp

theorem toDigitsCore_eq_decChars :
    ∀ (f n : ℕ) (acc : List Char), n < f →
      Nat.toDigitsCore 10 f n acc = decChars n ++ acc := by
  intro f
  induction f with
  | zero => intro n acc h; omega
  | succ fuel ih =>
    intro n acc h
    show (if n / 10 = 0 then Nat.digitChar (n % 10) :: acc
      else Nat.toDigitsCore 10 fuel (n / 10) (Nat.digitChar (n % 10) :: acc)) =
        decChars n ++ acc
    by_cases h10 : n / 10 = 0
    · have hn : n < 10 := by
        by_contra hc
        have : 1 ≤ n / 10 := Nat.le_div_iff_mul_le (by norm_num) |>.mpr (by omega)
        omega
      rw [if_pos h10]
      by_cases h0 : n = 0
      · subst h0
        rw [decChars_zero]
        simp [digitChar_zero]
      · rw [decChars_lt10 h0 hn, Nat.mod_eq_of_lt hn]
        simp
    · have hn : 10 ≤ n := by
        by_contra hc
        exact h10 (Nat.div_eq_of_lt (by omega))
      have hlt : n / 10 < fuel := by
        have h1 : n / 10 < n := Nat.div_lt_self (by omega) (by norm_num)
        omega
      rw [if_neg h10, ih (n / 10) (Nat.digitChar (n % 10) :: acc) hlt,
        decChars_ge10 hn]
      simp

theorem repr_data_eq_decChars (n : ℕ) : (Nat.repr n).data = decChars n := by
  show (Nat.toDigits 10 n).asString.data = decChars n
  rw [Nat.toDigits, toDigitsCore_eq_decChars (n + 1) n [] (Nat.lt_succ_self n)]
  simp [List.asString]

theorem digitChar_isDigit : ∀ d < 10, (Nat.digitChar d).isDigit = true := by decide

theorem digitChar_inj_lt :
    ∀ a < 10, ∀ b < 10, Nat.digitChar a = Nat.digitChar b → a = b := by decide

theorem decChars_isDigit (n : ℕ) : ∀ c ∈ decChars n, c.isDigit = true := by
  intro c hc
  rw [decChars] at hc
  by_cases h0 : n = 0
  · simp [h0] at hc
    subst hc; decide
  · rw [if_neg h0] at hc
    simp only [List.mem_reverse, List.mem_map] at hc
    obtain ⟨d, hd, rfl⟩ := hc
    exact digitChar_isDigit d (Nat.digits_lt_base (by norm_num) hd)

theorem map_digitChar_inj :
    ∀ (l1 l2 : List ℕ), (∀ d ∈ l1, d < 10) → (∀ d ∈ l2, d < 10) →
      l1.map Nat.digitChar = l2.map Nat.digitChar → l1 = l2 := by
  intro l1
  induction l1 with
  | nil => intro l2 _ _ h; cases l2 <;> simp_all
  | cons a l ih =>
    intro l2 h1 h2 h
    cases l2 with
    | nil => simp at h
    | cons b l2' =>
      simp only [List.map_cons, List.cons.injEq] at h
      have hab : a = b :=
        digitChar_inj_lt a (h1 a (by simp)) b (h2 b (by simp)) h.1
      have htl : l = l2' := by
        refine ih l2' (fun d hd => h1 d (by simp [hd])) (fun d hd => h2 d (by simp [hd])) h.2
      rw [hab, htl]

theorem decChars_inj {m n : ℕ} (h : decChars m = decChars n) : m = n := by
  by_cases hm : m = 0 <;> by_cases hn : n = 0
  · omega
  · exfalso
    rw [decChars, decChars, if_pos hm, if_neg hn] at h
    have hrev : (Nat.digits 10 n).map Nat.digitChar = ['0'] := by
      have := congrArg List.reverse h
      simpa using this.symm
    obtain ⟨d, hd, hmap⟩ : ∃ d, Nat.digits 10 n = [d] ∧ Nat.digitChar d = '0' := by
      cases hdig : Nat.digits 10 n with
      | nil => rw [hdig] at hrev; simp at hrev
      | cons x xs =>
        rw [hdig] at hrev
        cases xs with
        | nil => simp at hrev; exact ⟨x, rfl, hrev⟩
        | cons y ys => simp at hrev
    have hd10 : d < 10 := Nat.digits_lt_base (by norm_num) (by rw [hd]; simp)
    have hd0 : d = 0 := digitChar_inj_lt d hd10 0 (by norm_num) (by simpa using hmap)
    have := Nat.ofDigits_digits 10 n
    rw [hd, hd0] at this
    simp [Nat.ofDigits] at this
    omega
  · exfalso
    rw [decChars, decChars, if_neg hm, if_pos hn] at h
    have hrev : (Nat.digits 10 m).map Nat.digitChar = ['0'] := by
      have := congrArg List.reverse h
      simpa using this
    obtain ⟨d, hd, hmap⟩ : ∃ d, Nat.digits 10 m = [d] ∧ Nat.digitChar d = '0' := by
      cases hdig : Nat.digits 10 m with
      | nil => rw [hdig] at hrev; simp at hrev
      | cons x xs =>
        rw [hdig] at hrev
        cases xs with
        | nil => simp at hrev; exact ⟨x, rfl, hrev⟩
        | cons y ys => simp at hrev
    have hd10 : d < 10 := Nat.digits_lt_base (by norm_num) (by rw [hd]; simp)
    have hd0 : d = 0 := digitChar_inj_lt d hd10 0 (by norm_num) (by simpa using hmap)
    have := Nat.ofDigits_digits 10 m
    rw [hd, hd0] at this
    simp [Nat.ofDigits] at this
    omega
  · rw [decChars, decChars, if_neg hm, if_neg hn] at h
    have hmaps : (Nat.digits 10 m).map Nat.digitChar = (Nat.digits 10 n).map Nat.digitChar := by
      have := congrArg List.reverse h
      simpa using this
    have hdig : Nat.digits 10 m = Nat.digits 10 n :=
      map_digitChar_inj _ _ (fun d hd => Nat.digits_lt_base (by norm_num) hd)
        (fun d hd => Nat.digits_lt_base (by norm_num) hd) hmaps
    have := Nat.ofDigits_digits 10 m
    rw [hdig, Nat.ofDigits_digits] at this
    omega

theorem digit_split :
    ∀ (l1 l2 r1 r2 : List Char), (∀ c ∈ l1, c.isDigit = true) →
      (∀ c ∈ l2, c.isDigit = true) →
      (∀ c, r1.head? = some c → c.isDigit = false) →
      (∀ c, r2.head? = some c → c.isDigit = false) →
      l1 ++ r1 = l2 ++ r2 → l1 = l2 ∧ r1 = r2 := by
  intro l1
  induction l1 with
  | nil =>
    intro l2 r1 r2 _ h2 hr1 _ h
    cases l2 with
    | nil => exact ⟨rfl, h⟩
    | cons b l2' =>
      exfalso
      simp only [List.nil_append, List.cons_append] at h
      have hb : r1.head? = some b := by rw [h]; rfl
      have := hr1 b hb
      rw [h2 b (by simp)] at this
      cases this
  | cons a l1' ih =>
    intro l2 r1 r2 h1 h2 hr1 hr2 h
    cases l2 with
    | nil =>
      exfalso
      simp only [List.cons_append, List.nil_append] at h
      have ha : r2.head? = some a := by rw [← h]; rfl
      have := hr2 a ha
      rw [h1 a (by simp)] at this
      cases this
    | cons b l2' =>
      simp only [List.cons_append, List.cons.injEq] at h
      obtain ⟨rfl, htl⟩ := h
      obtain ⟨he, hr⟩ := ih l2' r1 r2 (fun c hc => h1 c (by simp [hc]))
        (fun c hc => h2 c (by simp [hc])) hr1 hr2 htl
      exact ⟨by rw [he], hr⟩

theorem candName_data (r t1 t2 : ℕ) :
    (scheduling.candName r t1 t2).data =
      'a' :: '[' :: (decChars r ++ ']' :: '[' ::
        (decChars t1 ++ '.' :: '.' :: (decChars t2 ++ [']']))) := by
  show ("a[" ++ Nat.repr r ++ "][" ++ Nat.repr t1 ++ ".." ++ Nat.repr t2 ++ "]").data = _
  simp [repr_data_eq_decChars]

theorem timeName_data (r : ℕ) :
    (scheduling.timeName r).data =
      't' :: 'i' :: 'm' :: 'e' :: '[' :: (decChars r ++ [']']) := by
  show ("time[" ++ Nat.repr r ++ "]").data = _
  simp [repr_data_eq_decChars]

theorem head_not_digit_bracketR (l : List Char) :
    ∀ c, (']' :: l).head? = some c → c.isDigit = false := by
  intro c hc
  simp only [List.head?_cons, Option.some.injEq] at hc
  subst hc; decide

theorem head_not_digit_dot (l : List Char) :
    ∀ c, ('.' :: l).head? = some c → c.isDigit = false := by
  intro c hc
  simp only [List.head?_cons, Option.some.injEq] at hc
  subst hc; decide

theorem candName_inj {r t1 t2 r' t1' t2' : ℕ}
    (h : scheduling.candName r t1 t2 = scheduling.candName r' t1' t2') :
    r = r' ∧ t1 = t1' ∧ t2 = t2' := by
  have hd := congrArg String.data h
  rw [candName_data, candName_data] at hd
  simp only [List.cons.injEq, true_and] at hd
  obtain ⟨hr, hrest⟩ := digit_split _ _ _ _ (decChars_isDigit r) (decChars_isDigit r')
    (head_not_digit_bracketR _) (head_not_digit_bracketR _) hd
  simp only [List.cons.injEq, true_and] at hrest
  obtain ⟨ht1, hrest2⟩ := digit_split _ _ _ _ (decChars_isDigit t1) (decChars_isDigit t1')
    (head_not_digit_dot _) (head_not_digit_dot _) hrest
  simp only [List.cons.injEq, true_and] at hrest2
  obtain ⟨ht2, -⟩ := digit_split _ _ _ _ (decChars_isDigit t2) (decChars_isDigit t2')
    (head_not_digit_bracketR _) (head_not_digit_bracketR _) hrest2
  exact ⟨decChars_inj hr, decChars_inj ht1, decChars_inj ht2⟩

theorem timeName_inj {r r' : ℕ}
    (h : scheduling.timeName r = scheduling.timeName r') : r = r' := by
  have hd := congrArg String.data h
  rw [timeName_data, timeName_data] at hd
  simp only [List.cons.injEq, true_and] at hd
  obtain ⟨hr, -⟩ := digit_split _ _ _ _ (decChars_isDigit r) (decChars_isDigit r')
    (head_not_digit_bracketR _) (head_not_digit_bracketR _) hd
  exact decChars_inj hr

theorem candName_ne_timeName (r t1 t2 s : ℕ) :
    scheduling.candName r t1 t2 ≠ scheduling.timeName s := by
  intro h
  have hd := congrArg String.data h
  rw [candName_data, timeName_data] at hd
  simp at hd

/-! ### Linear-expression lemmas -/

namespace lp

theorem setCoefficient_ok (e : LinExpr) (v : Var) (c : ℚ)
    (h : ∀ p ∈ e.terms, p.1.name = v.name → p.1 = v) :
    e.setCoefficient v c = .ok ⟨setCoeffList e.terms v c⟩ := by
  rw [LinExpr.setCoefficient, if_pos h]

theorem setCoefficient_error (e : LinExpr) (v : Var) (c : ℚ)
    (h : ¬ ∀ p ∈ e.terms, p.1.name = v.name → p.1 = v) :
    e.setCoefficient v c = .error (some ("Mismatching variable named " ++ v.name)) := by
  rw [LinExpr.setCoefficient, if_neg h]

theorem setCoefficient_ok_inv {e : LinExpr} {v : Var} {c : ℚ} {e2 : LinExpr}
    (h : e.setCoefficient v c = .ok e2) :
    (∀ p ∈ e.terms, p.1.name = v.name → p.1 = v) ∧ e2 = ⟨setCoeffList e.terms v c⟩ := by
  by_cases hc : ∀ p ∈ e.terms, p.1.name = v.name → p.1 = v
  · rw [setCoefficient_ok e v c hc] at h
    simp only [Except.ok.injEq] at h
    exact ⟨hc, h.symm⟩
  · rw [setCoefficient_error e v c hc] at h
    cases h

theorem setCoeffList_fresh (l : List (Var × ℚ)) (v : Var) (c : ℚ)
    (h : ∀ p ∈ l, p.1.name ≠ v.name) :
    setCoeffList l v c = l ++ [(v, c)] := by
  induction l with
  | nil => rfl
  | cons p rest ih =>
    simp only [setCoeffList]
    rw [if_neg (h p (by simp)), ih fun q hq => h q (by simp [hq])]
    rfl

theorem setCoeffList_subset {l : List (Var × ℚ)} {v : Var} {c : ℚ} :
    ∀ q ∈ setCoeffList l v c, q ∈ l ∨ q = (v, c) := by
  induction l with
  | nil =>
    intro q hq
    simp only [setCoeffList, List.mem_singleton] at hq
    exact Or.inr hq
  | cons p rest ih =>
    intro q hq
    simp only [setCoeffList] at hq
    by_cases hn : p.1.name = v.name
    · rw [if_pos hn] at hq
      rcases List.mem_cons.mp hq with h1 | h1
      · exact Or.inr h1
      · exact Or.inl (List.mem_cons_of_mem _ h1)
    · rw [if_neg hn] at hq
      rcases List.mem_cons.mp hq with h1 | h1
      · exact Or.inl (h1 ▸ List.mem_cons_self _ _)
      · rcases ih q h1 with h2 | h2
        · exact Or.inl (List.mem_cons_of_mem _ h2)
        · exact Or.inr h2

theorem mem_setCoeffList_iff {l : List (Var × ℚ)} {v : Var} {c : ℚ}
    (hwf : (l.map fun p => p.1.name).Nodup)
    (hall : ∀ p ∈ l, p.1.name = v.name → p.1 = v) (q : Var × ℚ) :
    q ∈ setCoeffList l v c ↔ (q = (v, c) ∨ (q ∈ l ∧ q.1.name ≠ v.name)) := by
  induction l with
  | nil => simp [setCoeffList]
  | cons p rest ih =>
    simp only [List.map_cons, List.nodup_cons, List.mem_map] at hwf
    obtain ⟨hpn, hwfr⟩ := hwf
    simp only [setCoeffList]
    by_cases hn : p.1.name = v.name
    · rw [if_pos hn]
      constructor
      · intro hq
        rcases List.mem_cons.mp hq with h1 | h1
        · exact Or.inl h1
        · refine Or.inr ⟨List.mem_cons_of_mem _ h1, ?_⟩
          intro hqn
          exact hpn ⟨q, h1, by rw [hqn, hn]⟩
      · intro hq
        rcases hq with h1 | ⟨h1, h2⟩
        · exact h1 ▸ List.mem_cons_self _ _
        · rcases List.mem_cons.mp h1 with h3 | h3
          · exact absurd (h3 ▸ hn) h2
          · exact List.mem_cons_of_mem _ h3
    · rw [if_neg hn]
      have ihr := ih hwfr fun p2 hp2 => hall p2 (List.mem_cons_of_mem _ hp2)
      constructor
      · intro hq
        rcases List.mem_cons.mp hq with h1 | h1
        · exact Or.inr ⟨h1 ▸ List.mem_cons_self _ _, h1 ▸ hn⟩
        · rcases ihr.mp h1 with h2 | ⟨h2, h3⟩
          · exact Or.inl h2
          · exact Or.inr ⟨List.mem_cons_of_mem _ h2, h3⟩
      · intro hq
        rcases hq with h1 | ⟨h1, h2⟩
        · exact List.mem_cons_of_mem _ (ihr.mpr (Or.inl h1))
        · rcases List.mem_cons.mp h1 with h3 | h3
          · exact h3 ▸ List.mem_cons_self _ _
          · exact List.mem_cons_of_mem _ (ihr.mpr (Or.inr ⟨h3, h2⟩))

theorem names_setCoeffList (l : List (Var × ℚ)) (v : Var) (c : ℚ) :
    (setCoeffList l v c).map (fun p => p.1.name) =
      if v.name ∈ l.map (fun p => p.1.name) then l.map (fun p => p.1.name)
      else l.map (fun p => p.1.name) ++ [v.name] := by
  induction l with
  | nil => simp [setCoeffList]
  | cons p rest ih =>
    simp only [setCoeffList]
    by_cases hn : p.1.name = v.name
    · rw [if_pos hn]
      simp [hn]
    · rw [if_neg hn]
      simp only [List.map_cons, ih, List.mem_cons]
      by_cases hm : v.name ∈ rest.map (fun p => p.1.name)
      · rw [if_pos hm, if_pos (Or.inr hm)]
      · rw [if_neg hm, if_neg ?_]
        · rfl
        · rintro (h1 | h1)
          · exact hn h1.symm
          · exact hm h1

theorem wf_setCoeffList {l : List (Var × ℚ)} (v : Var) (c : ℚ)
    (hwf : (l.map fun p => p.1.name).Nodup) :
    ((setCoeffList l v c).map fun p => p.1.name).Nodup := by
  rw [names_setCoeffList]
  by_cases hm : v.name ∈ l.map (fun p => p.1.name)
  · rwa [if_pos hm]
  · rw [if_neg hm, List.nodup_append]
    refine ⟨hwf, List.nodup_singleton _, ?_⟩
    intro a ha hb
    simp only [List.mem_singleton] at hb
    exact hm (hb ▸ ha)

theorem lookupCoeff_setCoeffList (l : List (Var × ℚ)) (v : Var) (c : ℚ) (n : String) :
    LinExpr.lookupCoeff ⟨setCoeffList l v c⟩ n =
      if n = v.name then some c else LinExpr.lookupCoeff ⟨l⟩ n := by
  simp only [LinExpr.lookupCoeff]
  induction l with
  | nil =>
    by_cases hn : n = v.name
    · subst hn
      simp [setCoeffList, List.find?_cons]
    · have h1 : (v.name == n) = false := by
        simp only [beq_eq_false_iff_ne]
        exact fun h => hn h.symm
      simp [setCoeffList, List.find?_cons, h1, hn]
  | cons p rest ih =>
    simp only [setCoeffList]
    by_cases hp : p.1.name = v.name
    · rw [if_pos hp]
      by_cases hn : n = v.name
      · subst hn
        simp [List.find?_cons]
      · have h1 : (v.name == n) = false := by
          simp only [beq_eq_false_iff_ne]
          exact fun h => hn h.symm
        have h2 : (p.1.name == n) = false := by rw [hp]; exact h1
        simp [List.find?_cons, h1, h2, hn]
    · rw [if_neg hp]
      by_cases hn : n = v.name
      · have h2 : (p.1.name == n) = false := by
          simp only [beq_eq_false_iff_ne]
          rw [hn]
          exact fun h => hp h
        simp only [List.find?_cons, h2]
        rw [ih]
      · cases hq : (p.1.name == n) with
        | true => simp [List.find?_cons, hq, hn]
        | false =>
          simp only [List.find?_cons, hq]
          rw [ih]

end lp

namespace lp

theorem fold_setCoeff_subset (g : Var × ℚ → ℚ) :
    ∀ (l : List (Var × ℚ)) (acc out : LinExpr),
      l.foldlM (fun (acc2 : LinExpr) p => acc2.setCoefficient p.1 (g p)) acc = .ok out →
      ∀ q ∈ out.terms, q ∈ acc.terms ∨ q.1 ∈ l.map fun p => p.1 := by
  intro l
  induction l with
  | nil =>
    intro acc out hout q hq
    simp only [List.foldlM_nil] at hout
    cases hout
    exact Or.inl hq
  | cons p rest ih =>
    intro acc out hout q hq
    rw [List.foldlM_cons] at hout
    cases h1 : acc.setCoefficient p.1 (g p) with
    | error e => rw [h1] at hout; cases hout
    | ok acc2 =>
      rw [h1] at hout
      simp only [Bind.bind, Except.bind] at hout
      obtain ⟨-, rfl⟩ := setCoefficient_ok_inv h1
      rcases ih _ out hout q hq with h2 | h2
      · rcases setCoeffList_subset q h2 with h3 | h3
        · exact Or.inl h3
        · exact Or.inr (by simp [h3])
      · exact Or.inr (by simp [h2])

theorem foldZero_spec :
    ∀ (l : List (Var × ℚ)) (acc : LinExpr) (S : List Var) (out : LinExpr),
      (acc.terms.map fun p => p.1.name).Nodup →
      (∀ q : Var × ℚ, q ∈ acc.terms ↔ (q.2 = 0 ∧ q.1 ∈ S)) →
      l.foldlM (fun (acc2 : LinExpr) p => acc2.setCoefficient p.1 0) acc = .ok out →
      ((out.terms.map fun p => p.1.name).Nodup ∧
        ∀ q : Var × ℚ, q ∈ out.terms ↔
          (q.2 = 0 ∧ (q.1 ∈ S ∨ q.1 ∈ l.map fun p => p.1))) := by
  intro l
  induction l with
  | nil =>
    intro acc S out hwf hinv hout
    simp only [List.foldlM_nil] at hout
    cases hout
    refine ⟨hwf, fun q => ?_⟩
    rw [hinv q]
    simp
  | cons p rest ih =>
    intro acc S out hwf hinv hout
    rw [List.foldlM_cons] at hout
    cases h1 : acc.setCoefficient p.1 0 with
    | error e => rw [h1] at hout; cases hout
    | ok acc2 =>
      rw [h1] at hout
      simp only [Bind.bind, Except.bind] at hout
      obtain ⟨hall, rfl⟩ := setCoefficient_ok_inv h1
      have hwf2 := wf_setCoeffList (l := acc.terms) p.1 0 hwf
      have hinv2 : ∀ q : Var × ℚ,
          q ∈ (setCoeffList acc.terms p.1 0) ↔ (q.2 = 0 ∧ q.1 ∈ S ++ [p.1]) := by
        intro q
        rw [mem_setCoeffList_iff hwf hall q]
        constructor
        · intro hq
          rcases hq with rfl | ⟨hq, hn⟩
          · simp
          · have hq2 := (hinv q).mp hq
            exact ⟨hq2.1, by simp [hq2.2]⟩
        · rintro ⟨h0, hm⟩
          simp only [List.mem_append, List.mem_singleton] at hm
          rcases hm with hm | hm
          · by_cases hn : q.1.name = p.1.name
            · have hq1 := hall q ((hinv q).mpr ⟨h0, hm⟩) hn
              left
              obtain ⟨qv, qc⟩ := q
              simp only at hq1 h0
              rw [hq1, h0]
            · exact Or.inr ⟨(hinv q).mpr ⟨h0, hm⟩, hn⟩
          · left
            obtain ⟨qv, qc⟩ := q
            simp only at hm h0
            rw [hm, h0]
      have := ih ⟨setCoeffList acc.terms p.1 0⟩ (S ++ [p.1]) out hwf2 hinv2 hout
      refine ⟨this.1, fun q => ?_⟩
      rw [this.2 q]
      constructor
      · rintro ⟨h0, hm⟩
        refine ⟨h0, ?_⟩
        simp only [List.mem_append, List.mem_singleton, List.map_cons, List.mem_cons] at hm ⊢
        tauto
      · rintro ⟨h0, hm⟩
        refine ⟨h0, ?_⟩
        simp only [List.mem_append, List.mem_singleton, List.map_cons, List.mem_cons] at hm ⊢
        tauto

end lp

namespace lp

theorem saturZero_spec :
    ∀ (cons : List Constraint) (acc : LinExpr) (S : List Var) (out : LinExpr),
      (acc.terms.map fun p => p.1.name).Nodup →
      (∀ q : Var × ℚ, q ∈ acc.terms ↔ (q.2 = 0 ∧ q.1 ∈ S)) →
      cons.foldlM
        (fun (acc3 : LinExpr) con => con.expr.getVarCoefficients.foldlM
          (fun (acc2 : LinExpr) p => acc2.setCoefficient p.1 0) acc3) acc = .ok out →
      ((out.terms.map fun p => p.1.name).Nodup ∧
        ∀ q : Var × ℚ, q ∈ out.terms ↔
          (q.2 = 0 ∧ (q.1 ∈ S ∨ q.1 ∈ constraintVars cons))) := by
  intro cons
  induction cons with
  | nil =>
    intro acc S out hwf hinv hout
    simp only [List.foldlM_nil] at hout
    cases hout
    refine ⟨hwf, fun q => ?_⟩
    rw [hinv q]
    simp [constraintVars]
  | cons con rest ih =>
    intro acc S out hwf hinv hout
    rw [List.foldlM_cons] at hout
    cases h1 : con.expr.getVarCoefficients.foldlM
        (fun (acc2 : LinExpr) p => acc2.setCoefficient p.1 0) acc with
    | error e => rw [h1] at hout; cases hout
    | ok acc2 =>
      rw [h1] at hout
      simp only [Bind.bind, Except.bind] at hout
      have hmid := foldZero_spec _ acc S acc2 hwf hinv h1
      have := ih acc2 (S ++ con.expr.terms.map fun p => p.1) out hmid.1
        (fun q => by
          rw [hmid.2 q]
          simp [LinExpr.getVarCoefficients]) hout
      refine ⟨this.1, fun q => ?_⟩
      rw [this.2 q]
      simp [constraintVars, LinExpr.getVarCoefficients, or_assoc]

theorem foldOverlay_spec :
    ∀ (l processed : List (Var × ℚ)) (acc : LinExpr) (cvars : List Var) (out : LinExpr),
      (acc.terms.map fun p => p.1.name).Nodup →
      ((processed ++ l).map fun p => p.1.name).Nodup →
      (∀ q : Var × ℚ, q ∈ acc.terms ↔
        (q ∈ processed ∨ (q.2 = 0 ∧ q.1 ∈ cvars ∧
          ∀ p ∈ processed, p.1.name ≠ q.1.name))) →
      (∀ w ∈ cvars, ∀ p ∈ processed, p.1.name = w.name → p.1 = w) →
      l.foldlM (fun (acc2 : LinExpr) p => acc2.setCoefficient p.1 p.2) acc = .ok out →
      ((out.terms.map fun p => p.1.name).Nodup ∧
        (∀ q : Var × ℚ, q ∈ out.terms ↔
          (q ∈ processed ++ l ∨ (q.2 = 0 ∧ q.1 ∈ cvars ∧
            ∀ p ∈ processed ++ l, p.1.name ≠ q.1.name))) ∧
        (∀ w ∈ cvars, ∀ p ∈ processed ++ l, p.1.name = w.name → p.1 = w)) := by
  intro l
  induction l with
  | nil =>
    intro processed acc cvars out hwf hobj hinv hcv hout
    simp only [List.foldlM_nil] at hout
    cases hout
    rw [List.append_nil]
    exact ⟨hwf, hinv, hcv⟩
  | cons pc rest ih =>
    intro processed acc cvars out hwf hobj hinv hcv hout
    rw [List.foldlM_cons] at hout
    cases h1 : acc.setCoefficient pc.1 pc.2 with
    | error e => rw [h1] at hout; cases hout
    | ok acc2 =>
      rw [h1] at hout
      simp only [Bind.bind, Except.bind] at hout
      obtain ⟨hall, rfl⟩ := setCoefficient_ok_inv h1
      have hwf2 := wf_setCoeffList (l := acc.terms) pc.1 pc.2 hwf
      have hpnotv : ∀ p ∈ processed, p.1.name ≠ pc.1.name := by
        intro p hp hcontra
        have h2 := hobj
        rw [List.map_append, List.nodup_append] at h2
        exact h2.2.2 (List.mem_map.mpr ⟨p, hp, rfl⟩) (by simp [hcontra])
      have hobj2 : ((processed ++ [pc] ++ rest).map fun p => p.1.name).Nodup := by
        rw [List.append_assoc, List.singleton_append]
        exact hobj
      have hinv2 : ∀ q : Var × ℚ, q ∈ (setCoeffList acc.terms pc.1 pc.2) ↔
          (q ∈ processed ++ [pc] ∨ (q.2 = 0 ∧ q.1 ∈ cvars ∧
            ∀ p ∈ processed ++ [pc], p.1.name ≠ q.1.name)) := by
        intro q
        rw [mem_setCoeffList_iff hwf hall q]
        constructor
        · intro hq
          rcases hq with rfl | ⟨hq, hn⟩
          · exact Or.inl (by simp)
          · rcases (hinv q).mp hq with h2 | ⟨h0, hcv2, hexc⟩
            · exact Or.inl (by simp [h2])
            · refine Or.inr ⟨h0, hcv2, ?_⟩
              intro p hp
              rcases List.mem_append.mp hp with h3 | h3
              · exact hexc p h3
              · simp only [List.mem_singleton] at h3
                subst h3
                exact fun h => hn (h.symm ▸ rfl)
        · intro hq
          rcases hq with hq | ⟨h0, hcv2, hexc⟩
          · rcases List.mem_append.mp hq with h2 | h2
            · refine Or.inr ⟨(hinv q).mpr (Or.inl h2), hpnotv q h2⟩
            · simp only [List.mem_singleton] at h2
              subst h2
              exact Or.inl rfl
          · have hnpc : pc.1.name ≠ q.1.name := hexc pc (by simp)
            refine Or.inr ⟨(hinv q).mpr (Or.inr ⟨h0, hcv2, ?_⟩), fun h => hnpc h.symm⟩
            intro p hp
            exact hexc p (List.mem_append_left _ hp)
      have hcv2 : ∀ w ∈ cvars, ∀ p ∈ processed ++ [pc], p.1.name = w.name → p.1 = w := by
        intro w hw p hp hn
        rcases List.mem_append.mp hp with h2 | h2
        · exact hcv w hw p h2 hn
        · simp only [List.mem_singleton] at h2
          subst h2
          have hw0 : ((w, (0 : ℚ)) : Var × ℚ) ∈ acc.terms := by
            refine (hinv (w, 0)).mpr (Or.inr ⟨rfl, hw, ?_⟩)
            intro p2 hp2 hcontra
            exact hpnotv p2 hp2 (hcontra.trans hn.symm)
          exact (hall (w, 0) hw0 hn.symm).symm ▸ rfl
      have := ih (processed ++ [pc]) ⟨setCoeffList acc.terms pc.1 pc.2⟩ cvars out
        hwf2 hobj2 hinv2 hcv2 hout
      rw [List.append_assoc, List.singleton_append] at this
      exact this

end lp

namespace lp

theorem saturate_ok_inv {objective : LinExpr} {constraints : List Constraint} {res : LinExpr}
    (h : saturate objective constraints = .ok res) :
    ∃ mid : LinExpr,
      constraints.foldlM
        (fun (acc3 : LinExpr) con => con.expr.getVarCoefficients.foldlM
          (fun (acc2 : LinExpr) p => acc2.setCoefficient p.1 0) acc3) LinExpr.empty = .ok mid ∧
      objective.getVarCoefficients.foldlM
        (fun (acc : LinExpr) p => acc.setCoefficient p.1 p.2) mid = .ok res := by
  unfold saturate at h
  cases h1 : constraints.foldlM
      (fun (acc3 : LinExpr) con => con.expr.getVarCoefficients.foldlM
        (fun (acc2 : LinExpr) p => acc2.setCoefficient p.1 0) acc3) LinExpr.empty with
  | error e =>
    rw [h1] at h
    simp [Bind.bind, Except.bind] at h
  | ok mid =>
    rw [h1] at h
    simp only [Bind.bind, Except.bind] at h
    exact ⟨mid, rfl, h⟩

theorem saturate_ok_spec {objective : LinExpr} {constraints : List Constraint} {res : LinExpr}
    (hwf : (objective.terms.map fun p => p.1.name).Nodup)
    (h : saturate objective constraints = .ok res) :
    (res.terms.map fun p => p.1.name).Nodup ∧
    (∀ q : Var × ℚ, q ∈ res.terms ↔
      (q ∈ objective.terms ∨ (q.2 = 0 ∧ q.1 ∈ constraintVars constraints ∧
        ∀ p ∈ objective.terms, p.1.name ≠ q.1.name))) ∧
    (∀ w ∈ constraintVars constraints, ∀ p ∈ objective.terms, p.1.name = w.name → p.1 = w) := by
  obtain ⟨mid, h1, h2⟩ := saturate_ok_inv h
  have hz := saturZero_spec constraints LinExpr.empty [] mid
    (by simp [LinExpr.empty]) (by simp [LinExpr.empty]) h1
  have ho := foldOverlay_spec objective.terms [] mid (constraintVars constraints) res hz.1
    (by simpa using hwf) (fun q => by rw [hz.2 q]; simp) (by simp) h2
  simpa using ho

theorem saturate_ok_subset {objective : LinExpr} {constraints : List Constraint} {res : LinExpr}
    (h : saturate objective constraints = .ok res) :
    ∀ q ∈ res.terms, q.1 ∈ constraintVars constraints ∨ ∃ c, (q.1, c) ∈ objective.terms := by
  obtain ⟨mid, h1, h2⟩ := saturate_ok_inv h
  have hz := saturZero_spec constraints LinExpr.empty [] mid
    (by simp [LinExpr.empty]) (by simp [LinExpr.empty]) h1
  intro q hq
  rcases fold_setCoeff_subset (fun p => p.2) objective.terms mid res h2 q hq with h3 | h3
  · left
    have := (hz.2 q).mp h3
    simpa using this.2
  · right
    obtain ⟨p, hp, hpe⟩ := List.mem_map.mp h3
    exact ⟨p.2, by rw [← hpe]; exact hp⟩

theorem minimize_ok_some_inv {oracle : String → ℚ} {objective : LinExpr}
    {constraints : List Constraint} {sol : LinExpr}
    (h : minimize (some oracle) objective constraints = .ok (some sol)) :
    ∃ sat, saturate objective constraints = .ok sat ∧
      sat.getVarCoefficients.foldlM
        (fun (acc : LinExpr) p => acc.setCoefficient p.1 (oracle p.1.name))
        LinExpr.empty = .ok sol := by
  unfold minimize at h
  cases h1 : saturate objective constraints with
  | error e =>
    rw [h1] at h
    simp [Bind.bind, Except.bind] at h
  | ok sat =>
    rw [h1] at h
    simp only [Bind.bind, Except.bind] at h
    cases h2 : sat.getVarCoefficients.foldlM
        (fun (acc : LinExpr) p => acc.setCoefficient p.1 (oracle p.1.name))
        LinExpr.empty with
    | error e =>
      rw [h2] at h
      simp at h
    | ok sol2 =>
      rw [h2] at h
      simp only [Bind.bind, Except.bind, pure, Except.pure, Except.ok.injEq,
        Option.some.injEq] at h
      exact ⟨sat, rfl, h ▸ h2⟩

theorem minimize_oracle_none {objective : LinExpr} {constraints : List Constraint}
    {sat : LinExpr} (h : saturate objective constraints = .ok sat) :
    minimize none objective constraints = .ok none := by
  unfold minimize
  rw [h]
  rfl

end lp

namespace scheduling

open lp

theorem runSolve_oracle_none {model : LP} {sat : LinExpr}
    (h : saturate model.objective model.constraints = .ok sat) :
    runSolve model none = .ok none := by
  unfold runSolve
  rw [minimize_oracle_none h]
  rfl

theorem runSolve_some_inv {model : LP} {f : String → ℚ} {g : List (List Bool)}
    (h : runSolve model (some f) = .ok (some g)) :
    ∃ sol, minimize (some f) model.objective model.constraints = .ok (some sol) ∧
      g = decode model.numRiders model.numTimeSlices sol := by
  unfold runSolve at h
  cases h1 : minimize (some f) model.objective model.constraints with
  | error e =>
    rw [h1] at h
    simp [Bind.bind, Except.bind] at h
  | ok osol =>
    rw [h1] at h
    cases osol with
    | none =>
      simp only [Bind.bind, Except.bind] at h
      cases h
    | some sol =>
      simp only [Bind.bind, Except.bind, Except.ok.injEq, Option.some.injEq] at h
      exact ⟨sol, rfl, h.symm⟩

end scheduling

theorem getD_mem_or_default {α : Type} (l : List α) (i : ℕ) (d : α) :
    l.getD i d ∈ l ∨ l.getD i d = d := by
  induction l generalizing i with
  | nil => simp
  | cons x xs ih =>
    cases i with
    | zero => simp
    | succ j =>
      rcases ih j with h | h
      · exact Or.inl (List.mem_cons_of_mem _ (by simpa using h))
      · simp only [List.getD_cons_succ]
        rcases ih j with h2 | h2
        · exact Or.inl (List.mem_cons_of_mem _ h2)
        · exact Or.inr h2

theorem lookup_isSome_mem {β : Type} (l : List (String × β)) (a : String)
    (h : (l.lookup a).isSome = true) : a ∈ l.map fun p => p.1 := by
  induction l with
  | nil => simp [List.lookup] at h
  | cons p rest ih =>
    simp only [List.lookup] at h
    cases hq : (a == p.1) with
    | true =>
      simp only [List.map_cons, List.mem_cons]
      exact Or.inl (by simpa using hq)
    | false =>
      rw [hq] at h
      simp only [List.map_cons, List.mem_cons]
      exact Or.inr (ih h)

theorem lookup_eq_some_mem {β : Type} (l : List (String × β)) (a : String) (b : β)
    (h : l.lookup a = some b) : ∃ k, (k, b) ∈ l := by
  induction l with
  | nil => simp [List.lookup] at h
  | cons p rest ih =>
    simp only [List.lookup] at h
    cases hq : (a == p.1) with
    | true =>
      rw [hq] at h
      simp only [Option.some.injEq] at h
      exact ⟨p.1, by simp [← h]⟩
    | false =>
      rw [hq] at h
      obtain ⟨k, hk⟩ := ih h
      exact ⟨k, List.mem_cons_of_mem _ hk⟩

namespace scheduling

open lp

theorem candVarOf_name (a : AuxData) :
    (candVarOf a).name = candName a.rider a.t1 a.t2 := rfl

theorem timeVarOf_name (guaranteed : List ℚ) (r : ℕ) :
    (timeVarOf guaranteed r).name = timeName r := rfl

theorem candVarOf_name_inj {a b : AuxData}
    (h : (candVarOf a).name = (candVarOf b).name) : a = b := by
  rw [candVarOf_name, candVarOf_name] at h
  obtain ⟨h1, h2, h3⟩ := candName_inj h
  cases a; cases b
  simp_all

theorem candVarOf_name_ne_timeVarOf (a : AuxData) (guaranteed : List ℚ) (r : ℕ) :
    (candVarOf a).name ≠ (timeVarOf guaranteed r).name := by
  rw [candVarOf_name, timeVarOf_name]
  exact candName_ne_timeName _ _ _ _

theorem timeVarOf_name_inj {guaranteed : List ℚ} {r r' : ℕ}
    (h : (timeVarOf guaranteed r).name = (timeVarOf guaranteed r').name) : r = r' := by
  rw [timeVarOf_name, timeVarOf_name] at h
  exact timeName_inj h

theorem candVarOf_auxData (a : AuxData) : (candVarOf a).auxData = some a := rfl

theorem timeVarOf_auxData (guaranteed : List ℚ) (r : ℕ) :
    (timeVarOf guaranteed r).auxData = none := rfl

theorem enumFrom_t2_ge (duration : List ℚ) (available : List (List Bool))
    (minDuration : ℚ) (rider : ℕ) :
    ∀ (fuel t2 : ℕ) (d : ℚ), ∀ p ∈ enumFrom duration available minDuration rider fuel t2 d,
      t2 ≤ p.1 := by
  intro fuel
  induction fuel with
  | zero => intro t2 d p hp; simp [enumFrom] at hp
  | succ f ih =>
    intro t2 d p hp
    simp only [enumFrom] at hp
    by_cases ha : availAt available t2 rider = true
    · rw [if_pos ha] at hp
      rcases List.mem_append.mp hp with h | h
      · by_cases hm : minDuration ≤ d + durAt duration t2
        · rw [if_pos hm] at h
          simp only [List.mem_singleton] at h
          simp [h]
        · rw [if_neg hm] at h
          simp at h
      · have := ih (t2 + 1) (d + durAt duration t2) p h
        omega
    · rw [if_neg ha] at hp
      simp at hp

theorem candsFromT1_shape (duration : List ℚ) (available : List (List Bool))
    (minDuration : ℚ) (numTimeSlices rider : ℕ) :
    ∀ (fuel t1 : ℕ), ∀ b ∈ candsFromT1 duration available minDuration numTimeSlices rider fuel t1,
      b.1.rider = rider ∧ t1 ≤ b.1.t1 := by
  intro fuel
  induction fuel with
  | zero => intro t1 b hb; simp [candsFromT1] at hb
  | succ f ih =>
    intro t1 b hb
    simp only [candsFromT1] at hb
    rcases List.mem_append.mp hb with h | h
    · obtain ⟨q, -, rfl⟩ := List.mem_map.mp h
      exact ⟨rfl, le_refl _⟩
    · have := ih (t1 + 1) b h
      exact ⟨this.1, by omega⟩

theorem candsFromRider_shape (duration : List ℚ) (available : List (List Bool))
    (minDuration : ℚ) (numTimeSlices : ℕ) :
    ∀ (fuel rider : ℕ),
      ∀ b ∈ candsFromRider duration available minDuration numTimeSlices fuel rider,
        rider ≤ b.1.rider := by
  intro fuel
  induction fuel with
  | zero => intro rider b hb; simp [candsFromRider] at hb
  | succ f ih =>
    intro rider b hb
    simp only [candsFromRider] at hb
    rcases List.mem_append.mp hb with h | h
    · exact le_of_eq (candsFromT1_shape duration available minDuration
        numTimeSlices rider numTimeSlices 0 b h).1.symm
    · have := ih (rider + 1) b h
      omega

end scheduling

namespace scheduling

open lp

theorem setCoeffOpt_spec {oc : Option Constraint} {v : Var} {c : ℚ}
    (hok : ∀ con, oc = some con → ∀ p ∈ con.expr.terms, p.1.name = v.name → p.1 = v) :
    ∃ oc2, setCoeffOpt oc v c = .ok oc2 ∧
      ∀ con2, oc2 = some con2 →
        (∃ con, oc = some con ∧ con2.name = con.name ∧
          con2.lowerBound = con.lowerBound ∧ con2.upperBound = con.upperBound ∧
          ∀ p ∈ con2.expr.terms, p ∈ con.expr.terms ∨ p = (v, c)) := by
  cases oc with
  | none => exact ⟨none, rfl, by simp⟩
  | some con =>
    have h1 := setCoefficient_ok con.expr v c (hok con rfl)
    refine ⟨some { con with expr := ⟨setCoeffList con.expr.terms v c⟩ }, ?_, ?_⟩
    · simp [setCoeffOpt, Constraint.setCoefficient, h1, Except.map]
    · intro con2 hcon2
      simp only [Option.some.injEq] at hcon2
      refine ⟨con, rfl, ?_⟩
      subst hcon2
      exact ⟨rfl, rfl, rfl, fun p hp => setCoeffList_subset p hp⟩

theorem setCoeffAt_spec {l : List (Option Constraint)} {t : ℕ} {v : Var} {c : ℚ}
    (hok : ∀ oc ∈ l, ∀ con, oc = some con →
      ∀ p ∈ con.expr.terms, p.1.name = v.name → p.1 = v) :
    ∃ l2, setCoeffAt l t v c = .ok l2 ∧
      ∀ oc2 ∈ l2, ∀ con2, oc2 = some con2 → ∀ p ∈ con2.expr.terms,
        (p = (v, c) ∨ ∃ oc ∈ l, ∃ con, oc = some con ∧ p ∈ con.expr.terms) := by
  have hgd : ∀ con, l.getD t none = some con →
      ∀ p ∈ con.expr.terms, p.1.name = v.name → p.1 = v := by
    intro con hcon
    rcases getD_mem_or_default l t none with h | h
    · exact hok _ (hcon ▸ h) con rfl
    · rw [hcon] at h; cases h
  obtain ⟨oc2, hoc2, hspec⟩ := setCoeffOpt_spec (c := c) hgd
  refine ⟨l.set t oc2, ?_, ?_⟩
  · simp only [setCoeffAt]
    rw [hoc2]
    rfl
  intro oc3 hoc3 con3 hcon3 p hp
  rcases List.mem_or_eq_of_mem_set hoc3 with h | h
  · exact Or.inr ⟨oc3, h, con3, hcon3, hp⟩
  · subst h
    obtain ⟨con, hcon, -, -, -, hsub⟩ := hspec con3 hcon3
    rcases hsub p hp with h2 | h2
    · refine Or.inr ⟨l.getD t none, ?_, con, hcon, h2⟩
      rcases getD_mem_or_default l t none with h3 | h3
      · exact h3
      · rw [hcon] at h3; cases h3
    · exact Or.inl h2

theorem updateAssoc_spec :
    ∀ (l : List (String × List (Option Constraint))) (key : String) (t : ℕ) (v : Var) (c : ℚ),
      key ∈ l.map (fun p => p.1) →
      (∀ pr ∈ l, ∀ oc ∈ pr.2, ∀ con, oc = some con →
        ∀ p ∈ con.expr.terms, p.1.name = v.name → p.1 = v) →
      ∃ l2, updateAssoc l key t v c = .ok l2 ∧
        l2.map (fun p => p.1) = l.map (fun p => p.1) ∧
        ∀ pr2 ∈ l2, ∀ oc2 ∈ pr2.2, ∀ con2, oc2 = some con2 → ∀ p ∈ con2.expr.terms,
          (p = (v, c) ∨ ∃ pr ∈ l, ∃ oc ∈ pr.2, ∃ con, oc = some con ∧ p ∈ con.expr.terms) := by
  intro l
  induction l with
  | nil => intro key t v c hkey _; simp at hkey
  | cons pr rest ih =>
    intro key t v c hkey hok
    by_cases hk : pr.1 = key
    · have hokrow : ∀ oc ∈ pr.2, ∀ con, oc = some con →
          ∀ p ∈ con.expr.terms, p.1.name = v.name → p.1 = v :=
        hok pr (List.mem_cons_self _ _)
      obtain ⟨arr2, harr2, hspec⟩ := setCoeffAt_spec hokrow
      refine ⟨(pr.1, arr2) :: rest, ?_, by simp, ?_⟩
      · simp only [updateAssoc]
        rw [if_pos hk, harr2]
        rfl
      · intro pr2 hpr2 oc2 hoc2 con2 hcon2 p hp
        rcases List.mem_cons.mp hpr2 with h | h
        · subst h
          simp only at hoc2
          rcases hspec oc2 hoc2 con2 hcon2 p hp with h2 | ⟨oc, hoc, con, hcon, hpcon⟩
          · exact Or.inl h2
          · exact Or.inr ⟨pr, List.mem_cons_self _ _, oc, hoc, con, hcon, hpcon⟩
        · exact Or.inr ⟨pr2, List.mem_cons_of_mem _ h, oc2, hoc2, con2, hcon2, hp⟩
    · have hkey2 : key ∈ rest.map fun p => p.1 := by
        simp only [List.map_cons, List.mem_cons] at hkey
        rcases hkey with h | h
        · exact absurd h.symm hk
        · exact h
      obtain ⟨rest2, hrest2, hkeys, hspec⟩ := ih key t v c hkey2
        fun pr2 hpr2 => hok pr2 (List.mem_cons_of_mem _ hpr2)
      refine ⟨(pr.1, pr.2) :: rest2, ?_, by simpa using hkeys, ?_⟩
      · simp only [updateAssoc]
        rw [if_neg hk, hrest2]
        rfl
      · intro pr2 hpr2 oc2 hoc2 con2 hcon2 p hp
        rcases List.mem_cons.mp hpr2 with h | h
        · subst h
          exact Or.inr ⟨pr, List.mem_cons_self _ _, oc2, hoc2, con2, hcon2, hp⟩
        · rcases hspec pr2 h oc2 hoc2 con2 hcon2 p hp with h2 | ⟨pr3, hpr3, rest3⟩
          · exact Or.inl h2
          · exact Or.inr ⟨pr3, List.mem_cons_of_mem _ hpr3, rest3⟩

end scheduling

namespace scheduling

open lp

theorem slotLoop_spec (riderTy : String) (rider : ℕ) (a : AuxData) (P : List (AuxData × ℚ)) :
    ∀ (fuel t : ℕ) (st : GState),
      a ∈ P.map (fun q => q.1) →
      riderTy ∈ st.haveEnoughRidersOfType.map (fun p => p.1) →
      (∀ oc ∈ st.haveEnoughRiders, ∀ con, oc = some con →
        ∀ p ∈ con.expr.terms, p.1 ∈ P.map fun q => candVarOf q.1) →
      (∀ pr ∈ st.haveEnoughRidersOfType, ∀ oc ∈ pr.2, ∀ con, oc = some con →
        ∀ p ∈ con.expr.terms, p.1 ∈ P.map fun q => candVarOf q.1) →
      (∀ row ∈ st.disjointAllocations, ∀ oc ∈ row, ∀ con, oc = some con →
        ∀ p ∈ con.expr.terms, p.1 ∈ P.map fun q => candVarOf q.1) →
      ∃ st2, slotLoop riderTy rider (candVarOf a) fuel t st = .ok st2 ∧
        st2.objective = st.objective ∧
        st2.timeCounted = st.timeCounted ∧
        st2.timeCoefficient = st.timeCoefficient ∧
        st2.haveEnoughRidersOfType.map (fun p => p.1) =
          st.haveEnoughRidersOfType.map (fun p => p.1) ∧
        (∀ oc ∈ st2.haveEnoughRiders, ∀ con, oc = some con →
          ∀ p ∈ con.expr.terms, p.1 ∈ P.map fun q => candVarOf q.1) ∧
        (∀ pr ∈ st2.haveEnoughRidersOfType, ∀ oc ∈ pr.2, ∀ con, oc = some con →
          ∀ p ∈ con.expr.terms, p.1 ∈ P.map fun q => candVarOf q.1) ∧
        (∀ row ∈ st2.disjointAllocations, ∀ oc ∈ row, ∀ con, oc = some con →
          ∀ p ∈ con.expr.terms, p.1 ∈ P.map fun q => candVarOf q.1) := by
  intro fuel
  induction fuel with
  | zero =>
    intro t st ha hkey h3 h4 h5
    exact ⟨st, rfl, rfl, rfl, rfl, rfl, h3, h4, h5⟩
  | succ f ih =>
    intro t st ha hkey h3 h4 h5
    have hva : candVarOf a ∈ P.map fun q => candVarOf q.1 := by
      obtain ⟨q, hq, rfl⟩ := List.mem_map.mp ha
      exact List.mem_map.mpr ⟨q, hq, rfl⟩
    have hname : ∀ (w : Var), w ∈ (P.map fun q => candVarOf q.1) →
        w.name = (candVarOf a).name → w = candVarOf a := by
      intro w hw hn
      obtain ⟨q, -, rfl⟩ := List.mem_map.mp hw
      rw [candVarOf_name_inj hn]
    have hok3 : ∀ oc ∈ st.haveEnoughRiders, ∀ con, oc = some con →
        ∀ p ∈ con.expr.terms, p.1.name = (candVarOf a).name → p.1 = candVarOf a := by
      intro oc hoc con hcon p hp hn
      exact hname p.1 (h3 oc hoc con hcon p hp) hn
    obtain ⟨enough2, henough2, hspec3⟩ := setCoeffAt_spec (t := t) (c := 1) hok3
    have hok4 : ∀ pr ∈ st.haveEnoughRidersOfType, ∀ oc ∈ pr.2, ∀ con, oc = some con →
        ∀ p ∈ con.expr.terms, p.1.name = (candVarOf a).name → p.1 = candVarOf a := by
      intro pr hpr oc hoc con hcon p hp hn
      exact hname p.1 (h4 pr hpr oc hoc con hcon p hp) hn
    obtain ⟨ty2, hty2, hkeys2, hspec4⟩ :=
      updateAssoc_spec st.haveEnoughRidersOfType riderTy t (candVarOf a) 1 hkey hok4
    have hok5 : ∀ oc ∈ st.disjointAllocations.getD rider [], ∀ con, oc = some con →
        ∀ p ∈ con.expr.terms, p.1.name = (candVarOf a).name → p.1 = candVarOf a := by
      intro oc hoc con hcon p hp hn
      rcases getD_mem_or_default st.disjointAllocations rider [] with hrow | hrow
      · exact hname p.1 (h5 _ hrow oc hoc con hcon p hp) hn
      · rw [hrow] at hoc; simp at hoc
    obtain ⟨disj2, hdisj2, hspec5⟩ := setCoeffAt_spec (t := t) (c := 1) hok5
    have h3x : ∀ oc ∈ enough2, ∀ con, oc = some con →
        ∀ p ∈ con.expr.terms, p.1 ∈ P.map fun q => candVarOf q.1 := by
      intro oc hoc con hcon p hp
      rcases hspec3 oc hoc con hcon p hp with h | ⟨oc0, hoc0, con0, hcon0, hp0⟩
      · rw [h]; exact hva
      · exact h3 oc0 hoc0 con0 hcon0 p hp0
    have h4x : ∀ pr ∈ ty2, ∀ oc ∈ pr.2, ∀ con, oc = some con →
        ∀ p ∈ con.expr.terms, p.1 ∈ P.map fun q => candVarOf q.1 := by
      intro pr hpr oc hoc con hcon p hp
      rcases hspec4 pr hpr oc hoc con hcon p hp with h | ⟨pr0, hpr0, oc0, hoc0, con0, hcon0, hp0⟩
      · rw [h]; exact hva
      · exact h4 pr0 hpr0 oc0 hoc0 con0 hcon0 p hp0
    have h5x : ∀ row ∈ st.disjointAllocations.set rider disj2, ∀ oc ∈ row, ∀ con, oc = some con →
        ∀ p ∈ con.expr.terms, p.1 ∈ P.map fun q => candVarOf q.1 := by
      intro row hrow oc hoc con hcon p hp
      rcases List.mem_or_eq_of_mem_set hrow with h | h
      · exact h5 row h oc hoc con hcon p hp
      · subst h
        rcases hspec5 oc hoc con hcon p hp with h2 | ⟨oc0, hoc0, con0, hcon0, hp0⟩
        · rw [h2]; exact hva
        · rcases getD_mem_or_default st.disjointAllocations rider [] with hrow2 | hrow2
          · exact h5 _ hrow2 oc0 hoc0 con0 hcon0 p hp0
          · rw [hrow2] at hoc0; simp at hoc0
    obtain ⟨st2, hrec, hobj2, htc2, hcoef2, hkeysr, h3r, h4r, h5r⟩ :=
      ih (t + 1)
        { st with haveEnoughRiders := enough2, haveEnoughRidersOfType := ty2,
                  disjointAllocations := st.disjointAllocations.set rider disj2 }
        ha (by simpa [hkeys2] using hkey) h3x h4x h5x
    refine ⟨st2, ?_, hobj2, htc2, hcoef2, ?_, h3r, h4r, h5r⟩
    · simp only [slotLoop]
      rw [henough2, hty2, hdisj2]
      simp only [Bind.bind, Except.bind]
      exact hrec
    · rw [hkeysr]
      exact hkeys2

end scheduling

namespace scheduling

open lp

theorem addCandidate_spec (riderType : List String) (a : AuxData) (d : ℚ)
    (st : GState) (P : List (AuxData × ℚ))
    (hfresh : ∀ q ∈ P, q.1 ≠ a)
    (hkey : riderType.getD a.rider "" ∈ st.haveEnoughRidersOfType.map (fun p => p.1))
    (h1 : st.objective.terms = P.map fun q => (candVarOf q.1, 1))
    (h2 : ∀ con ∈ st.timeCounted, ∀ p ∈ con.expr.terms,
      p.1 ∈ P.map fun q => candVarOf q.1)
    (h3 : ∀ oc ∈ st.haveEnoughRiders, ∀ con, oc = some con →
      ∀ p ∈ con.expr.terms, p.1 ∈ P.map fun q => candVarOf q.1)
    (h4 : ∀ pr ∈ st.haveEnoughRidersOfType, ∀ oc ∈ pr.2, ∀ con, oc = some con →
      ∀ p ∈ con.expr.terms, p.1 ∈ P.map fun q => candVarOf q.1)
    (h5 : ∀ row ∈ st.disjointAllocations, ∀ oc ∈ row, ∀ con, oc = some con →
      ∀ p ∈ con.expr.terms, p.1 ∈ P.map fun q => candVarOf q.1)
    (h6 : st.timeCoefficient = P.length) :
    ∃ st2, addCandidate riderType a.rider a.t1 a.t2 d st = .ok st2 ∧
      st2.objective.terms = (P ++ [(a, d)]).map (fun q => (candVarOf q.1, 1)) ∧
      (∀ con ∈ st2.timeCounted, ∀ p ∈ con.expr.terms,
        p.1 ∈ (P ++ [(a, d)]).map fun q => candVarOf q.1) ∧
      (∀ oc ∈ st2.haveEnoughRiders, ∀ con, oc = some con →
        ∀ p ∈ con.expr.terms, p.1 ∈ (P ++ [(a, d)]).map fun q => candVarOf q.1) ∧
      (∀ pr ∈ st2.haveEnoughRidersOfType, ∀ oc ∈ pr.2, ∀ con, oc = some con →
        ∀ p ∈ con.expr.terms, p.1 ∈ (P ++ [(a, d)]).map fun q => candVarOf q.1) ∧
      (∀ row ∈ st2.disjointAllocations, ∀ oc ∈ row, ∀ con, oc = some con →
        ∀ p ∈ con.expr.terms, p.1 ∈ (P ++ [(a, d)]).map fun q => candVarOf q.1) ∧
      st2.timeCoefficient = (P ++ [(a, d)]).length ∧
      st2.haveEnoughRidersOfType.map (fun p => p.1) =
        st.haveEnoughRidersOfType.map (fun p => p.1) := by
  have hmono : ∀ w : Var, w ∈ (P.map fun q => candVarOf q.1) →
      w ∈ (P ++ [(a, d)]).map fun q => candVarOf q.1 := by
    intro w hw
    rw [List.map_append]
    exact List.mem_append_left _ hw
  have hamem : candVarOf a ∈ (P ++ [(a, d)]).map fun q => candVarOf q.1 := by
    rw [List.map_append]
    exact List.mem_append_right _ (by simp)
  have hfreshname : ∀ w : Var, w ∈ (P.map fun q => candVarOf q.1) →
      w.name ≠ (candVarOf a).name := by
    intro w hw hn
    obtain ⟨q, hq, rfl⟩ := List.mem_map.mp hw
    exact hfresh q hq (candVarOf_name_inj hn)
  have hobjok : st.objective.setCoefficient (candVarOf a) 1 =
      .ok ⟨st.objective.terms ++ [(candVarOf a, 1)]⟩ := by
    have hfr : ∀ p ∈ st.objective.terms, p.1.name ≠ (candVarOf a).name := by
      intro p hp
      refine hfreshname p.1 ?_
      rw [h1] at hp
      obtain ⟨q, hq, rfl⟩ := List.mem_map.mp hp
      exact List.mem_map.mpr ⟨q, hq, rfl⟩
    rw [setCoefficient_ok _ _ _ fun p hp hn => absurd hn (hfr p hp),
      setCoeffList_fresh _ _ _ hfr]
  have htc0 : ∀ p ∈ (st.timeCounted.getD a.rider defCon).expr.terms,
      p.1 ∈ P.map fun q => candVarOf q.1 := by
    intro p hp
    rcases getD_mem_or_default st.timeCounted a.rider defCon with h | h
    · exact h2 _ h p hp
    · rw [h] at hp
      simp [defCon, LinExpr.empty] at hp
  have htcok : (st.timeCounted.getD a.rider defCon).setCoefficient (candVarOf a) (-d) =
      .ok { st.timeCounted.getD a.rider defCon with
        expr := ⟨(st.timeCounted.getD a.rider defCon).expr.terms ++ [(candVarOf a, -d)]⟩ } := by
    have hfr : ∀ p ∈ (st.timeCounted.getD a.rider defCon).expr.terms,
        p.1.name ≠ (candVarOf a).name := fun p hp => hfreshname p.1 (htc0 p hp)
    rw [Constraint.setCoefficient,
      setCoefficient_ok _ _ _ fun p hp hn => absurd hn (hfr p hp),
      setCoeffList_fresh _ _ _ hfr]
    rfl
  obtain ⟨st3, hslot, hobj3, htc3, hcoef3, hkeys3, h3r, h4r, h5r⟩ :=
    slotLoop_spec (riderType.getD a.rider "") a.rider a (P ++ [(a, d)]) (a.t2 + 1 - a.t1) a.t1
      { st with
        objective := ⟨st.objective.terms ++ [(candVarOf a, 1)]⟩
        timeCounted := st.timeCounted.set a.rider
          { st.timeCounted.getD a.rider defCon with
            expr := ⟨(st.timeCounted.getD a.rider defCon).expr.terms ++ [(candVarOf a, -d)]⟩ } }
      (by rw [List.map_append]; exact List.mem_append_right _ (by simp))
      hkey
      (fun oc hoc con hcon p hp => hmono p.1 (h3 oc hoc con hcon p hp))
      (fun pr hpr oc hoc con hcon p hp => hmono p.1 (h4 pr hpr oc hoc con hcon p hp))
      (fun row hrow oc hoc con hcon p hp => hmono p.1 (h5 row hrow oc hoc con hcon p hp))
  refine ⟨{ st3 with timeCoefficient := st3.timeCoefficient + 1 }, ?_, ?_, ?_, h3r, h4r, h5r, ?_, ?_⟩
  · show addCandidate riderType a.rider a.t1 a.t2 d st = _
    simp only [addCandidate]
    rw [hobjok, htcok]
    simp only [Bind.bind, Except.bind]
    rw [hslot]
  · show st3.objective.terms = _
    rw [hobj3]
    show st.objective.terms ++ [(candVarOf a, 1)] = _
    rw [h1, List.map_append]
    rfl
  · intro con hcon p hp
    have hcon2 : con ∈ st3.timeCounted := hcon
    rw [htc3] at hcon2
    rcases List.mem_or_eq_of_mem_set hcon2 with h | h
    · exact hmono p.1 (h2 con h p hp)
    · subst h
      rcases List.mem_append.mp hp with hp2 | hp2
      · exact hmono p.1 (htc0 p hp2)
      · simp only [List.mem_singleton] at hp2
        rw [hp2]
        exact hamem
  · show st3.timeCoefficient + 1 = _
    rw [hcoef3]
    simp [h6]
  · exact hkeys3

end scheduling

namespace scheduling

open lp

theorem t2Loop_spec (duration : List ℚ) (available : List (List Bool)) (minDuration : ℚ)
    (riderType : List String) (rider t1 : ℕ) :
    ∀ (fuel t2 : ℕ) (d : ℚ) (st : GState) (P : List (AuxData × ℚ)),
      (∀ q ∈ P, ∀ p ∈ enumFrom duration available minDuration rider fuel t2 d,
        q.1 ≠ (⟨rider, t1, p.1⟩ : AuxData)) →
      riderType.getD rider "" ∈ st.haveEnoughRidersOfType.map (fun p => p.1) →
      st.objective.terms = P.map (fun q => (candVarOf q.1, 1)) →
      (∀ con ∈ st.timeCounted, ∀ p ∈ con.expr.terms,
        p.1 ∈ P.map fun q => candVarOf q.1) →
      (∀ oc ∈ st.haveEnoughRiders, ∀ con, oc = some con →
        ∀ p ∈ con.expr.terms, p.1 ∈ P.map fun q => candVarOf q.1) →
      (∀ pr ∈ st.haveEnoughRidersOfType, ∀ oc ∈ pr.2, ∀ con, oc = some con →
        ∀ p ∈ con.expr.terms, p.1 ∈ P.map fun q => candVarOf q.1) →
      (∀ row ∈ st.disjointAllocations, ∀ oc ∈ row, ∀ con, oc = some con →
        ∀ p ∈ con.expr.terms, p.1 ∈ P.map fun q => candVarOf q.1) →
      st.timeCoefficient = P.length →
      ∃ st2,
        t2Loop duration available minDuration riderType rider t1 fuel t2 d st = .ok st2 ∧
        (st2.objective.terms =
          (P ++ (enumFrom duration available minDuration rider fuel t2 d).map
            (fun p => ((⟨rider, t1, p.1⟩ : AuxData), p.2))).map
              (fun q => (candVarOf q.1, 1))) ∧
        (∀ con ∈ st2.timeCounted, ∀ p ∈ con.expr.terms,
          p.1 ∈ (P ++ (enumFrom duration available minDuration rider fuel t2 d).map
            (fun p => ((⟨rider, t1, p.1⟩ : AuxData), p.2))).map fun q => candVarOf q.1) ∧
        (∀ oc ∈ st2.haveEnoughRiders, ∀ con, oc = some con →
          ∀ p ∈ con.expr.terms,
            p.1 ∈ (P ++ (enumFrom duration available minDuration rider fuel t2 d).map
              (fun p => ((⟨rider, t1, p.1⟩ : AuxData), p.2))).map fun q => candVarOf q.1) ∧
        (∀ pr ∈ st2.haveEnoughRidersOfType, ∀ oc ∈ pr.2, ∀ con, oc = some con →
          ∀ p ∈ con.expr.terms,
            p.1 ∈ (P ++ (enumFrom duration available minDuration rider fuel t2 d).map
              (fun p => ((⟨rider, t1, p.1⟩ : AuxData), p.2))).map fun q => candVarOf q.1) ∧
        (∀ row ∈ st2.disjointAllocations, ∀ oc ∈ row, ∀ con, oc = some con →
          ∀ p ∈ con.expr.terms,
            p.1 ∈ (P ++ (enumFrom duration available minDuration rider fuel t2 d).map
              (fun p => ((⟨rider, t1, p.1⟩ : AuxData), p.2))).map fun q => candVarOf q.1) ∧
        st2.timeCoefficient =
          (P ++ (enumFrom duration available minDuration rider fuel t2 d).map
            (fun p => ((⟨rider, t1, p.1⟩ : AuxData), p.2))).length ∧
        st2.haveEnoughRidersOfType.map (fun p => p.1) =
          st.haveEnoughRidersOfType.map (fun p => p.1) := by
  intro fuel
  induction fuel with
  | zero =>
    intro t2 d st P hfr hkey h1 h2 h3 h4 h5 h6
    refine ⟨st, rfl, ?_, ?_, ?_, ?_, ?_, ?_, rfl⟩ <;>
      simp only [enumFrom, List.map_nil, List.append_nil]
    · exact h1
    · exact h2
    · exact h3
    · exact h4
    · exact h5
    · exact h6
  | succ f ih =>
    intro t2 d st P hfr hkey h1 h2 h3 h4 h5 h6
    by_cases ha : availAt available t2 rider = true
    · have henum : enumFrom duration available minDuration rider (f + 1) t2 d =
          (if minDuration ≤ d + durAt duration t2
            then [(t2, d + durAt duration t2)] else []) ++
          enumFrom duration available minDuration rider f (t2 + 1) (d + durAt duration t2) := by
        simp only [enumFrom]
        rw [if_pos ha]
      by_cases hm : minDuration ≤ d + durAt duration t2
      · have hfresh : ∀ q ∈ P, q.1 ≠ (⟨rider, t1, t2⟩ : AuxData) := by
          intro q hq
          refine hfr q hq (t2, d + durAt duration t2) ?_
          rw [henum, if_pos hm]
          exact List.mem_append_left _ (by simp)
        obtain ⟨stc, hstc, hc1, hc2, hc3, hc4, hc5, hc6, hckeys⟩ :=
          addCandidate_spec riderType ⟨rider, t1, t2⟩ (d + durAt duration t2) st P
            hfresh hkey h1 h2 h3 h4 h5 h6
        obtain ⟨st2, hst2, hr1, hr2, hr3, hr4, hr5, hr6, hrkeys⟩ :=
          ih (t2 + 1) (d + durAt duration t2) stc
            (P ++ [((⟨rider, t1, t2⟩ : AuxData), d + durAt duration t2)])
            (by
              intro q hq p hp
              rcases List.mem_append.mp hq with h | h
              · refine hfr q h p ?_
                rw [henum]
                exact List.mem_append_right _ hp
              · simp only [List.mem_singleton] at h
                subst h
                have := enumFrom_t2_ge duration available minDuration rider f
                  (t2 + 1) (d + durAt duration t2) p hp
                intro hcontra
                simp only [AuxData.mk.injEq] at hcontra
                omega)
            (by rw [hckeys]; exact hkey)
            hc1 hc2 hc3 hc4 hc5 hc6
        refine ⟨st2, ?_, ?_, ?_, ?_, ?_, ?_, ?_, ?_⟩
        · simp only [t2Loop]
          rw [if_pos ha, if_pos hm, hstc]
          simp only [Bind.bind, Except.bind]
          exact hst2
        · rw [henum, if_pos hm, hr1]
          simp
        · rw [henum, if_pos hm]
          intro con hcon p hp
          have := hr2 con hcon p hp
          simpa using this
        · rw [henum, if_pos hm]
          intro oc hoc con hcon p hp
          have := hr3 oc hoc con hcon p hp
          simpa using this
        · rw [henum, if_pos hm]
          intro pr hpr oc hoc con hcon p hp
          have := hr4 pr hpr oc hoc con hcon p hp
          simpa using this
        · rw [henum, if_pos hm]
          intro row hrow oc hoc con hcon p hp
          have := hr5 row hrow oc hoc con hcon p hp
          simpa using this
        · rw [henum, if_pos hm, hr6]
          simp
        · rw [hrkeys, hckeys]
      · obtain ⟨st2, hst2, hr1, hr2, hr3, hr4, hr5, hr6, hrkeys⟩ :=
          ih (t2 + 1) (d + durAt duration t2) st P
            (by
              intro q hq p hp
              refine hfr q hq p ?_
              rw [henum]
              exact List.mem_append_right _ hp)
            hkey h1 h2 h3 h4 h5 h6
        refine ⟨st2, ?_, ?_, ?_, ?_, ?_, ?_, ?_, hrkeys⟩
        · simp only [t2Loop]
          rw [if_pos ha, if_neg hm]
          simp only [Bind.bind, Except.bind]
          exact hst2
        · rw [henum, if_neg hm, List.nil_append]
          exact hr1
        · rw [henum, if_neg hm, List.nil_append]
          exact hr2
        · rw [henum, if_neg hm, List.nil_append]
          exact hr3
        · rw [henum, if_neg hm, List.nil_append]
          exact hr4
        · rw [henum, if_neg hm, List.nil_append]
          exact hr5
        · rw [henum, if_neg hm, List.nil_append]
          exact hr6
    · have henum : enumFrom duration available minDuration rider (f + 1) t2 d = [] := by
        simp only [enumFrom]
        rw [if_neg ha]
      refine ⟨st, ?_, ?_, ?_, ?_, ?_, ?_, ?_, rfl⟩
      · simp only [t2Loop]
        rw [if_neg ha]
      · rw [henum]
        simpa using h1
      · rw [henum]
        simpa using h2
      · rw [henum]
        simpa using h3
      · rw [henum]
        simpa using h4
      · rw [henum]
        simpa using h5
      · rw [henum]
        simpa using h6

end scheduling

namespace scheduling

open lp

theorem t1Loop_spec (duration : List ℚ) (available : List (List Bool)) (minDuration : ℚ)
    (riderType : List String) (numTimeSlices rider : ℕ) :
    ∀ (fuel t1 : ℕ) (st : GState) (P : List (AuxData × ℚ)),
      (∀ q ∈ P, ∀ b ∈ candsFromT1 duration available minDuration numTimeSlices rider fuel t1,
        q.1 ≠ b.1) →
      riderType.getD rider "" ∈ st.haveEnoughRidersOfType.map (fun p => p.1) →
      st.objective.terms = P.map (fun q => (candVarOf q.1, 1)) →
      (∀ con ∈ st.timeCounted, ∀ p ∈ con.expr.terms,
        p.1 ∈ P.map fun q => candVarOf q.1) →
      (∀ oc ∈ st.haveEnoughRiders, ∀ con, oc = some con →
        ∀ p ∈ con.expr.terms, p.1 ∈ P.map fun q => candVarOf q.1) →
      (∀ pr ∈ st.haveEnoughRidersOfType, ∀ oc ∈ pr.2, ∀ con, oc = some con →
        ∀ p ∈ con.expr.terms, p.1 ∈ P.map fun q => candVarOf q.1) →
      (∀ row ∈ st.disjointAllocations, ∀ oc ∈ row, ∀ con, oc = some con →
        ∀ p ∈ con.expr.terms, p.1 ∈ P.map fun q => candVarOf q.1) →
      st.timeCoefficient = P.length →
      ∃ st2,
        t1Loop duration available minDuration riderType numTimeSlices rider fuel t1 st
          = .ok st2 ∧
        (st2.objective.terms =
          (P ++ candsFromT1 duration available minDuration numTimeSlices rider fuel t1).map
            (fun q => (candVarOf q.1, 1))) ∧
        (∀ con ∈ st2.timeCounted, ∀ p ∈ con.expr.terms,
          p.1 ∈ (P ++ candsFromT1 duration available minDuration numTimeSlices rider fuel t1).map
            fun q => candVarOf q.1) ∧
        (∀ oc ∈ st2.haveEnoughRiders, ∀ con, oc = some con →
          ∀ p ∈ con.expr.terms,
            p.1 ∈ (P ++ candsFromT1 duration available minDuration numTimeSlices rider fuel t1).map
              fun q => candVarOf q.1) ∧
        (∀ pr ∈ st2.haveEnoughRidersOfType, ∀ oc ∈ pr.2, ∀ con, oc = some con →
          ∀ p ∈ con.expr.terms,
            p.1 ∈ (P ++ candsFromT1 duration available minDuration numTimeSlices rider fuel t1).map
              fun q => candVarOf q.1) ∧
        (∀ row ∈ st2.disjointAllocations, ∀ oc ∈ row, ∀ con, oc = some con →
          ∀ p ∈ con.expr.terms,
            p.1 ∈ (P ++ candsFromT1 duration available minDuration numTimeSlices rider fuel t1).map
              fun q => candVarOf q.1) ∧
        st2.timeCoefficient =
          (P ++ candsFromT1 duration available minDuration numTimeSlices rider fuel t1).length ∧
        st2.haveEnoughRidersOfType.map (fun p => p.1) =
          st.haveEnoughRidersOfType.map (fun p => p.1) := by
  intro fuel
  induction fuel with
  | zero =>
    intro t1 st P hfr hkey h1 h2 h3 h4 h5 h6
    refine ⟨st, rfl, ?_, ?_, ?_, ?_, ?_, ?_, rfl⟩
    · rw [candsFromT1]
      simpa using h1
    · rw [candsFromT1]
      simpa using h2
    · rw [candsFromT1]
      simpa using h3
    · rw [candsFromT1]
      simpa using h4
    · rw [candsFromT1]
      simpa using h5
    · rw [candsFromT1]
      simpa using h6
  | succ f ih =>
    intro t1 st P hfr hkey h1 h2 h3 h4 h5 h6
    have hcands : candsFromT1 duration available minDuration numTimeSlices rider (f + 1) t1 =
        ((enumFrom duration available minDuration rider (numTimeSlices - t1) t1 0).map
          fun q => ((⟨rider, t1, q.1⟩ : AuxData), q.2)) ++
        candsFromT1 duration available minDuration numTimeSlices rider f (t1 + 1) := by
      simp only [candsFromT1]
    obtain ⟨stc, hstc, hc1, hc2, hc3, hc4, hc5, hc6, hckeys⟩ :=
      t2Loop_spec duration available minDuration riderType rider t1
        (numTimeSlices - t1) t1 0 st P
        (by
          intro q hq p hp
          refine hfr q hq ((⟨rider, t1, p.1⟩ : AuxData), p.2) ?_
          rw [hcands]
          exact List.mem_append_left _ (List.mem_map.mpr ⟨p, hp, rfl⟩))
        hkey h1 h2 h3 h4 h5 h6
    obtain ⟨st2, hst2, hr1, hr2, hr3, hr4, hr5, hr6, hrkeys⟩ :=
      ih (t1 + 1) stc
        (P ++ (enumFrom duration available minDuration rider (numTimeSlices - t1) t1 0).map
          (fun q => ((⟨rider, t1, q.1⟩ : AuxData), q.2)))
        (by
          intro q hq b hb
          rcases List.mem_append.mp hq with h | h
          · refine hfr q h b ?_
            rw [hcands]
            exact List.mem_append_right _ hb
          · obtain ⟨p, -, rfl⟩ := List.mem_map.mp h
            have := (candsFromT1_shape duration available minDuration numTimeSlices rider
              f (t1 + 1) b hb).2
            intro hcontra
            have ht1 := congrArg AuxData.t1 hcontra
            simp only at ht1
            omega)
        (by rw [hckeys]; exact hkey)
        hc1 hc2 hc3 hc4 hc5 hc6
    refine ⟨st2, ?_, ?_, ?_, ?_, ?_, ?_, ?_, ?_⟩
    · simp only [t1Loop]
      rw [hstc]
      simp only [Bind.bind, Except.bind]
      exact hst2
    · rw [hcands, hr1]
      simp
    · rw [hcands]
      intro con hcon p hp
      have := hr2 con hcon p hp
      simpa using this
    · rw [hcands]
      intro oc hoc con hcon p hp
      have := hr3 oc hoc con hcon p hp
      simpa using this
    · rw [hcands]
      intro pr hpr oc hoc con hcon p hp
      have := hr4 pr hpr oc hoc con hcon p hp
      simpa using this
    · rw [hcands]
      intro row hrow oc hoc con hcon p hp
      have := hr5 row hrow oc hoc con hcon p hp
      simpa using this
    · rw [hcands, hr6]
      simp
    · rw [hrkeys, hckeys]

end scheduling

namespace scheduling

open lp

theorem riderLoop_spec (duration : List ℚ) (available : List (List Bool)) (minDuration : ℚ)
    (riderType : List String) (numTimeSlices : ℕ) :
    ∀ (fuel rider : ℕ) (st : GState) (P : List (AuxData × ℚ)),
      (∀ q ∈ P, ∀ b ∈ candsFromRider duration available minDuration numTimeSlices fuel rider,
        q.1 ≠ b.1) →
      (∀ r, rider ≤ r → r < rider + fuel →
        riderType.getD r "" ∈ st.haveEnoughRidersOfType.map (fun p => p.1)) →
      st.objective.terms = P.map (fun q => (candVarOf q.1, 1)) →
      (∀ con ∈ st.timeCounted, ∀ p ∈ con.expr.terms,
        p.1 ∈ P.map fun q => candVarOf q.1) →
      (∀ oc ∈ st.haveEnoughRiders, ∀ con, oc = some con →
        ∀ p ∈ con.expr.terms, p.1 ∈ P.map fun q => candVarOf q.1) →
      (∀ pr ∈ st.haveEnoughRidersOfType, ∀ oc ∈ pr.2, ∀ con, oc = some con →
        ∀ p ∈ con.expr.terms, p.1 ∈ P.map fun q => candVarOf q.1) →
      (∀ row ∈ st.disjointAllocations, ∀ oc ∈ row, ∀ con, oc = some con →
        ∀ p ∈ con.expr.terms, p.1 ∈ P.map fun q => candVarOf q.1) →
      st.timeCoefficient = P.length →
      ∃ st2,
        riderLoop duration available minDuration riderType numTimeSlices fuel rider st
          = .ok st2 ∧
        (st2.objective.terms =
          (P ++ candsFromRider duration available minDuration numTimeSlices fuel rider).map
            (fun q => (candVarOf q.1, 1))) ∧
        (∀ con ∈ st2.timeCounted, ∀ p ∈ con.expr.terms,
          p.1 ∈ (P ++ candsFromRider duration available minDuration numTimeSlices fuel rider).map
            fun q => candVarOf q.1) ∧
        (∀ oc ∈ st2.haveEnoughRiders, ∀ con, oc = some con →
          ∀ p ∈ con.expr.terms,
            p.1 ∈ (P ++ candsFromRider duration available minDuration
              numTimeSlices fuel rider).map fun q => candVarOf q.1) ∧
        (∀ pr ∈ st2.haveEnoughRidersOfType, ∀ oc ∈ pr.2, ∀ con, oc = some con →
          ∀ p ∈ con.expr.terms,
            p.1 ∈ (P ++ candsFromRider duration available minDuration
              numTimeSlices fuel rider).map fun q => candVarOf q.1) ∧
        (∀ row ∈ st2.disjointAllocations, ∀ oc ∈ row, ∀ con, oc = some con →
          ∀ p ∈ con.expr.terms,
            p.1 ∈ (P ++ candsFromRider duration available minDuration
              numTimeSlices fuel rider).map fun q => candVarOf q.1) ∧
        st2.timeCoefficient =
          (P ++ candsFromRider duration available minDuration numTimeSlices fuel rider).length ∧
        st2.haveEnoughRidersOfType.map (fun p => p.1) =
          st.haveEnoughRidersOfType.map (fun p => p.1) := by
  intro fuel
  induction fuel with
  | zero =>
    intro rider st P hfr hkeys h1 h2 h3 h4 h5 h6
    refine ⟨st, rfl, ?_, ?_, ?_, ?_, ?_, ?_, rfl⟩
    · rw [candsFromRider]
      simpa using h1
    · rw [candsFromRider]
      simpa using h2
    · rw [candsFromRider]
      simpa using h3
    · rw [candsFromRider]
      simpa using h4
    · rw [candsFromRider]
      simpa using h5
    · rw [candsFromRider]
      simpa using h6
  | succ f ih =>
    intro rider st P hfr hkeys h1 h2 h3 h4 h5 h6
    have hcands : candsFromRider duration available minDuration numTimeSlices (f + 1) rider =
        candsFromT1 duration available minDuration numTimeSlices rider numTimeSlices 0 ++
        candsFromRider duration available minDuration numTimeSlices f (rider + 1) := by
      simp only [candsFromRider]
    obtain ⟨stc, hstc, hc1, hc2, hc3, hc4, hc5, hc6, hckeys⟩ :=
      t1Loop_spec duration available minDuration riderType numTimeSlices rider
        numTimeSlices 0 st P
        (by
          intro q hq b hb
          refine hfr q hq b ?_
          rw [hcands]
          exact List.mem_append_left _ hb)
        (hkeys rider (le_refl _) (by omega))
        h1 h2 h3 h4 h5 h6
    obtain ⟨st2, hst2, hr1, hr2, hr3, hr4, hr5, hr6, hrkeys⟩ :=
      ih (rider + 1) stc
        (P ++ candsFromT1 duration available minDuration numTimeSlices rider numTimeSlices 0)
        (by
          intro q hq b hb
          rcases List.mem_append.mp hq with h | h
          · refine hfr q h b ?_
            rw [hcands]
            exact List.mem_append_right _ hb
          · have hq1 := (candsFromT1_shape duration available minDuration numTimeSlices rider
              numTimeSlices 0 q h).1
            have hb1 := candsFromRider_shape duration available minDuration numTimeSlices
              f (rider + 1) b hb
            intro hcontra
            have := congrArg AuxData.rider hcontra
            omega)
        (by
          intro r hr1 hr2
          rw [hckeys]
          exact hkeys r (by omega) (by omega))
        hc1 hc2 hc3 hc4 hc5 hc6
    refine ⟨st2, ?_, ?_, ?_, ?_, ?_, ?_, ?_, ?_⟩
    · simp only [riderLoop]
      rw [hstc]
      simp only [Bind.bind, Except.bind]
      exact hst2
    · rw [hcands, hr1]
      simp
    · rw [hcands]
      intro con hcon p hp
      have := hr2 con hcon p hp
      simpa using this
    · rw [hcands]
      intro oc hoc con hcon p hp
      have := hr3 oc hoc con hcon p hp
      simpa using this
    · rw [hcands]
      intro pr hpr oc hoc con hcon p hp
      have := hr4 pr hpr oc hoc con hcon p hp
      simpa using this
    · rw [hcands]
      intro row hrow oc hoc con hcon p hp
      have := hr5 row hrow oc hoc con hcon p hp
      simpa using this
    · rw [hcands, hr6]
      simp
    · rw [hrkeys, hckeys]

end scheduling

namespace scheduling

open lp

theorem timeLoop_spec (guaranteed : List ℚ) (k : ℚ) (Q : List (AuxData × ℚ)) :
    ∀ (fuel rider : ℕ) (st : GState),
      st.objective.terms = Q.map (fun q => (candVarOf q.1, 1)) ++
        (List.range rider).map (fun r => (timeVarOf guaranteed r, k)) →
      (∀ con ∈ st.timeCounted, ∀ p ∈ con.expr.terms,
        p.1 ∈ Q.map (fun q => candVarOf q.1) ∨ ∃ r, p.1 = timeVarOf guaranteed r) →
      ∃ st2, timeLoop guaranteed k fuel rider st = .ok st2 ∧
        st2.objective.terms = Q.map (fun q => (candVarOf q.1, 1)) ++
          (List.range (rider + fuel)).map (fun r => (timeVarOf guaranteed r, k)) ∧
        (∀ con ∈ st2.timeCounted, ∀ p ∈ con.expr.terms,
          p.1 ∈ Q.map (fun q => candVarOf q.1) ∨ ∃ r, p.1 = timeVarOf guaranteed r) ∧
        st2.haveEnoughRiders = st.haveEnoughRiders ∧
        st2.haveEnoughRidersOfType = st.haveEnoughRidersOfType ∧
        st2.disjointAllocations = st.disjointAllocations ∧
        st2.timeCoefficient = st.timeCoefficient := by
  intro fuel
  induction fuel with
  | zero =>
    intro rider st h1 h2
    exact ⟨st, rfl, by simpa using h1, h2, rfl, rfl, rfl, rfl⟩
  | succ f ih =>
    intro rider st h1 h2
    have hobjok : st.objective.setCoefficient (timeVarOf guaranteed rider) k =
        .ok ⟨st.objective.terms ++ [(timeVarOf guaranteed rider, k)]⟩ := by
      have hfr : ∀ p ∈ st.objective.terms,
          p.1.name ≠ (timeVarOf guaranteed rider).name := by
        intro p hp hn
        rw [h1] at hp
        rcases List.mem_append.mp hp with h | h
        · obtain ⟨q, -, rfl⟩ := List.mem_map.mp h
          exact candVarOf_name_ne_timeVarOf q.1 guaranteed rider hn
        · obtain ⟨r, hr, rfl⟩ := List.mem_map.mp h
          simp only [List.mem_range] at hr
          have := @timeVarOf_name_inj guaranteed _ _ hn
          omega
      rw [setCoefficient_ok _ _ _ fun p hp hn => absurd hn (hfr p hp),
        setCoeffList_fresh _ _ _ hfr]
    have htc0univ : ∀ p ∈ (st.timeCounted.getD rider defCon).expr.terms,
        p.1 ∈ Q.map (fun q => candVarOf q.1) ∨ ∃ r, p.1 = timeVarOf guaranteed r := by
      intro p hp
      rcases getD_mem_or_default st.timeCounted rider defCon with h | h
      · exact h2 _ h p hp
      · rw [h] at hp
        simp [defCon, LinExpr.empty] at hp
    have htcok : ∃ tc2,
        (st.timeCounted.getD rider defCon).setCoefficient (timeVarOf guaranteed rider) 1
          = .ok tc2 ∧
        ∀ p ∈ tc2.expr.terms,
          p ∈ (st.timeCounted.getD rider defCon).expr.terms ∨
            p = (timeVarOf guaranteed rider, 1) := by
      have hall : ∀ p ∈ (st.timeCounted.getD rider defCon).expr.terms,
          p.1.name = (timeVarOf guaranteed rider).name →
            p.1 = timeVarOf guaranteed rider := by
        intro p hp hn
        rcases htc0univ p hp with h | ⟨r, hr⟩
        · obtain ⟨q, -, hq⟩ := List.mem_map.mp h
          rw [← hq] at hn
          exact absurd hn (candVarOf_name_ne_timeVarOf q.1 guaranteed rider)
        · rw [hr] at hn ⊢
          rw [timeVarOf_name_inj hn]
      refine ⟨_, by rw [Constraint.setCoefficient, setCoefficient_ok _ _ _ hall]; rfl, ?_⟩
      intro p hp
      exact setCoeffList_subset p hp
    obtain ⟨tc2, htc2, htc2sub⟩ := htcok
    obtain ⟨st2, hst2, hr1, hr2, hr3, hr4, hr5, hr6⟩ :=
      ih (rider + 1)
        { st with objective := ⟨st.objective.terms ++ [(timeVarOf guaranteed rider, k)]⟩,
                  timeCounted := st.timeCounted.set rider tc2 }
        (by
          show st.objective.terms ++ [(timeVarOf guaranteed rider, k)] = _
          rw [h1, List.range_succ]
          simp)
        (by
          intro con hcon p hp
          rcases List.mem_or_eq_of_mem_set hcon with h | h
          · exact h2 con h p hp
          · subst h
            rcases htc2sub p hp with h | h
            · exact htc0univ p h
            · exact Or.inr ⟨rider, by rw [h]⟩)
    refine ⟨st2, ?_, ?_, hr2, hr3, hr4, hr5, hr6⟩
    · simp only [timeLoop]
      rw [hobjok, htc2]
      simp only [Bind.bind, Except.bind]
      exact hst2
    · rw [hr1]
      have : rider + 1 + f = rider + (f + 1) := by omega
      rw [this]

end scheduling

namespace scheduling

open lp

theorem makeLP_ok_spec (duration expected : List ℚ)
    (expectedOfType : List (String × List ℚ)) (riderType : List String)
    (available : List (List Bool)) (guaranteed : List ℚ) (minDuration : ℚ)
    (hvalid : validInputB duration expected expectedOfType riderType available guaranteed
      = true) :
    ∃ model,
      makeLP duration expected expectedOfType riderType available guaranteed minDuration
        = .ok model ∧
      model.objective.terms =
        (allCandidates duration available minDuration guaranteed.length
          expected.length).map (fun q => (candVarOf q.1, 1)) ++
        (List.range guaranteed.length).map (fun r => (timeVarOf guaranteed r,
          ((allCandidates duration available minDuration guaranteed.length
            expected.length).length : ℚ))) ∧
      (∀ con ∈ model.constraints, ∀ p ∈ con.expr.terms,
        p.1 ∈ (allCandidates duration available minDuration guaranteed.length
          expected.length).map (fun q => candVarOf q.1) ∨
        ∃ r, p.1 = timeVarOf guaranteed r) ∧
      model.numRiders = guaranteed.length ∧
      model.numTimeSlices = expected.length := by
  have hv := hvalid
  simp only [validInputB, Bool.and_eq_true] at hv
  obtain ⟨⟨⟨⟨⟨⟨⟨⟨⟨hb1, hb2⟩, hb3⟩, hb4⟩, hb5⟩, hb6⟩, hb7⟩, hb8⟩, hb9⟩, hb10⟩ := hv
  have hrtlen : riderType.length = guaranteed.length := by
    simpa using hb4
  have hkeys0 : ∀ r, r < guaranteed.length →
      riderType.getD r "" ∈ expectedOfType.map fun p => p.1 := by
    intro r hr
    have hmem : riderType.getD r "" ∈ riderType := by
      have hr2 : r < riderType.length := by omega
      rw [List.getD_eq_getElem?_getD, List.getElem?_eq_getElem hr2]
      exact List.getElem_mem _
    have := (List.all_eq_true.mp hb10) _ hmem
    exact lookup_isSome_mem expectedOfType _ (by simpa using this)
  obtain ⟨st1, hst1, h11, h12, h13, h14, h15, h16, h1keys⟩ :=
    riderLoop_spec duration available minDuration riderType expected.length
      guaranteed.length 0
      { objective := LinExpr.empty
        timeCounted := (List.range guaranteed.length).map fun rider =>
          { name := timeCountedName rider, lowerBound := some 0 }
        haveEnoughRiders := expected.enum.map fun q =>
          if q.2 = 0 then none else some { name := enoughName q.1, lowerBound := some q.2 }
        haveEnoughRidersOfType := expectedOfType.map fun p =>
          (p.1, p.2.enum.map fun q =>
            if q.2 = 0 then none
            else some { name := enoughTypeName p.1 q.1, lowerBound := some q.2 })
        disjointAllocations := (List.range guaranteed.length).map fun rider =>
          expected.enum.map fun q =>
            if availAt available q.1 rider = true then
              some { name := disjointName rider q.1, upperBound := some 1 }
            else none
        timeCoefficient := 0 }
      []
      (by simp)
      (by
        intro r hr0 hrlt
        simpa using hkeys0 r (by omega))
      (by simp [LinExpr.empty])
      (by
        intro con hcon p hp
        obtain ⟨r, -, rfl⟩ := List.mem_map.mp hcon
        simp [LinExpr.empty] at hp)
      (by
        intro oc hoc con hcon p hp
        obtain ⟨q, -, rfl⟩ := List.mem_map.mp hoc
        by_cases hq0 : q.2 = 0
        · rw [if_pos hq0] at hcon; cases hcon
        · rw [if_neg hq0] at hcon
          simp only [Option.some.injEq] at hcon
          rw [← hcon] at hp
          simp [LinExpr.empty] at hp)
      (by
        intro pr hpr oc hoc con hcon p hp
        obtain ⟨pq, -, rfl⟩ := List.mem_map.mp hpr
        simp only at hoc
        obtain ⟨q, -, rfl⟩ := List.mem_map.mp hoc
        by_cases hq0 : q.2 = 0
        · rw [if_pos hq0] at hcon; cases hcon
        · rw [if_neg hq0] at hcon
          simp only [Option.some.injEq] at hcon
          rw [← hcon] at hp
          simp [LinExpr.empty] at hp)
      (by
        intro row hrow oc hoc con hcon p hp
        obtain ⟨r, -, rfl⟩ := List.mem_map.mp hrow
        obtain ⟨q, -, rfl⟩ := List.mem_map.mp hoc
        by_cases hq0 : availAt available q.1 r = true
        · rw [if_pos hq0] at hcon
          simp only [Option.some.injEq] at hcon
          rw [← hcon] at hp
          simp [LinExpr.empty] at hp
        · rw [if_neg hq0] at hcon; cases hcon)
      (by simp [LinExpr.empty])
  obtain ⟨st2, hst2, h21, h22, h23, h24, h25, h26⟩ :=
    timeLoop_spec guaranteed (st1.timeCoefficient : ℚ)
      (allCandidates duration available minDuration guaranteed.length expected.length)
      guaranteed.length 0 st1
      (by
        rw [h11]
        simp [allCandidates])
      (by
        intro con hcon p hp
        exact Or.inl (by
          have := h12 con hcon p hp
          simpa [allCandidates] using this))
  refine ⟨{ objective := st2.objective,
            constraints := st2.timeCounted
              ++ st2.haveEnoughRiders.filterMap id
              ++ ((expectedOfType.map fun p => p.1).flatMap fun ty =>
                  ((st2.haveEnoughRidersOfType.lookup ty).getD []).filterMap id)
              ++ st2.disjointAllocations.flatMap fun row => row.filterMap id,
            numRiders := guaranteed.length, numTimeSlices := expected.length }, ?_, ?_, ?_, rfl, rfl⟩
  · simp only [makeLP, assert, hb1, hb2, hb3, hb4, hb5, hb6, hb7, hb8, hb9, hb10,
      if_true, Bind.bind, Except.bind]
    rw [hst1]
    simp only [Bind.bind, Except.bind]
    rw [hst2]
  · show st2.objective.terms = _
    rw [h21, h16]
    simp [allCandidates]
  · intro con hcon p hp
    have hcand : ∀ w : Var,
        w ∈ (allCandidates duration available minDuration guaranteed.length
          expected.length).map (fun q => candVarOf q.1) ∨ (∃ r, w = timeVarOf guaranteed r) →
        w ∈ (allCandidates duration available minDuration guaranteed.length
          expected.length).map (fun q => candVarOf q.1) ∨ ∃ r, w = timeVarOf guaranteed r :=
      fun w h => h
    simp only [List.append_assoc, List.mem_append] at hcon
    rcases hcon with hcon | hcon | hcon | hcon
    · exact h22 con hcon p hp
    · rw [h23] at hcon
      obtain ⟨oc, hoc, hcoc⟩ := List.mem_filterMap.mp hcon
      exact Or.inl (by
        have := h13 oc hoc con hcoc p hp
        simpa [allCandidates] using this)
    · rw [h24] at hcon
      obtain ⟨ty, -, hcon2⟩ := List.mem_flatMap.mp hcon
      cases hlk : st1.haveEnoughRidersOfType.lookup ty with
      | none =>
        rw [hlk] at hcon2
        simp at hcon2
      | some arr =>
        rw [hlk] at hcon2
        simp only [Option.getD_some] at hcon2
        obtain ⟨oc, hoc, hcoc⟩ := List.mem_filterMap.mp hcon2
        obtain ⟨kk, hkk⟩ := lookup_eq_some_mem _ _ _ hlk
        exact Or.inl (by
          have := h14 (kk, arr) hkk oc hoc con hcoc p hp
          simpa [allCandidates] using this)
    · rw [h25] at hcon
      obtain ⟨row, hrow, hcon2⟩ := List.mem_flatMap.mp hcon
      obtain ⟨oc, hoc, hcoc⟩ := List.mem_filterMap.mp hcon2
      exact Or.inl (by
        have := h15 row hrow oc hoc con hcoc p hp
        simpa [allCandidates] using this)

end scheduling

namespace scheduling

open lp

theorem enumFrom_mem (duration : List ℚ) (available : List (List Bool))
    (minDuration : ℚ) (rider : ℕ) :
    ∀ (fuel t0 : ℕ) (d0 : ℚ) (t2 : ℕ) (d : ℚ),
      (t2, d) ∈ enumFrom duration available minDuration rider fuel t0 d0 ↔
        (t0 ≤ t2 ∧ t2 < t0 + fuel ∧
          (∀ t, t0 ≤ t → t ≤ t2 → availAt available t rider = true) ∧
          d = d0 + ((List.range' t0 (t2 + 1 - t0)).map (durAt duration)).sum ∧
          minDuration ≤ d) := by
  intro fuel
  induction fuel with
  | zero =>
    intro t0 d0 t2 d
    simp only [enumFrom, List.not_mem_nil, false_iff]
    intro h
    omega
  | succ f ih =>
    intro t0 d0 t2 d
    simp only [enumFrom]
    by_cases ha : availAt available t0 rider = true
    · rw [if_pos ha]
      rw [List.mem_append, ih (t0 + 1) (d0 + durAt duration t0) t2 d]
      constructor
      · rintro (hhead | ⟨hge, hlt, hav, hsum, hmin⟩)
        · by_cases hm : minDuration ≤ d0 + durAt duration t0
          · rw [if_pos hm] at hhead
            simp only [List.mem_singleton, Prod.mk.injEq] at hhead
            obtain ⟨ht2eq, hdeq⟩ := hhead
            subst ht2eq
            subst hdeq
            refine ⟨le_refl _, by omega, ?_, ?_, hm⟩
            · intro t ht1 ht2
              have htt : t = t2 := by omega
              rw [htt]
              exact ha
            · have h1 : t2 + 1 - t2 = 1 := by omega
              rw [h1]
              simp
          · rw [if_neg hm] at hhead
            simp at hhead
        · refine ⟨by omega, by omega, ?_, ?_, hmin⟩
          · intro t ht1 ht2
            rcases Nat.eq_or_lt_of_le ht1 with h | h
            · rwa [← h]
            · exact hav t (by omega) ht2
          · rw [hsum]
            have hr : t2 + 1 - t0 = (t2 - t0) + 1 := by omega
            have hr2 : t2 + 1 - (t0 + 1) = t2 - t0 := by omega
            rw [hr, hr2, List.range'_succ]
            simp only [List.map_cons, List.sum_cons]
            ring
      · rintro ⟨hge, hlt, hav, hsum, hmin⟩
        rcases Nat.eq_or_lt_of_le hge with heq | hlt2
        · subst heq
          left
          have hsum2 : d = d0 + durAt duration t0 := by
            rw [hsum]
            have h1 : t0 + 1 - t0 = 1 := by omega
            rw [h1]
            simp
          rw [if_pos (by rw [← hsum2]; exact hmin)]
          simp only [List.mem_singleton, Prod.mk.injEq, true_and]
          exact hsum2
        · right
          refine ⟨by omega, by omega, fun t ht1 ht2 => hav t (by omega) ht2, ?_, hmin⟩
          rw [hsum]
          have hr : t2 + 1 - t0 = (t2 - t0) + 1 := by omega
          have hr2 : t2 + 1 - (t0 + 1) = t2 - t0 := by omega
          rw [hr, hr2, List.range'_succ]
          simp only [List.map_cons, List.sum_cons]
          ring
    · rw [if_neg ha]
      simp only [List.not_mem_nil, false_iff]
      rintro ⟨hge, hlt, hav, hsum, hmin⟩
      exact ha (hav t0 (le_refl _) hge)

theorem candsFromT1_mem (duration : List ℚ) (available : List (List Bool))
    (minDuration : ℚ) (numTimeSlices rider : ℕ) :
    ∀ (fuel t10 : ℕ) (a : AuxData) (d : ℚ),
      (a, d) ∈ candsFromT1 duration available minDuration numTimeSlices rider fuel t10 ↔
        (a.rider = rider ∧ t10 ≤ a.t1 ∧ a.t1 < t10 + fuel ∧
          (a.t2, d) ∈ enumFrom duration available minDuration rider
            (numTimeSlices - a.t1) a.t1 0) := by
  intro fuel
  induction fuel with
  | zero =>
    intro t10 a d
    simp only [candsFromT1, List.not_mem_nil, false_iff]
    intro h
    omega
  | succ f ih =>
    intro t10 a d
    simp only [candsFromT1, List.mem_append]
    rw [ih (t10 + 1) a d]
    constructor
    · rintro (hhead | ⟨hr, hge, hlt, henum⟩)
      · obtain ⟨q, hq, heq⟩ := List.mem_map.mp hhead
        have h1 := congrArg (fun x => x.1.rider) heq
        have h2 := congrArg (fun x => x.1.t1) heq
        have h3 := congrArg (fun x => x.1.t2) heq
        have h4 := congrArg (fun x => x.2) heq
        simp only at h1 h2 h3 h4
        refine ⟨h1.symm, by omega, by omega, ?_⟩
        rw [← h2, ← h3, ← h4]
        exact hq
      · exact ⟨hr, by omega, by omega, henum⟩
    · rintro ⟨hr, hge, hlt, henum⟩
      rcases Nat.eq_or_lt_of_le hge with heq | hlt2
      · left
        refine List.mem_map.mpr ⟨(a.t2, d), ?_, ?_⟩
        · rw [heq]
          exact henum
        · rw [← hr, heq]
      · right
        exact ⟨hr, by omega, by omega, henum⟩

theorem candsFromRider_mem (duration : List ℚ) (available : List (List Bool))
    (minDuration : ℚ) (numTimeSlices : ℕ) :
    ∀ (fuel r0 : ℕ) (a : AuxData) (d : ℚ),
      (a, d) ∈ candsFromRider duration available minDuration numTimeSlices fuel r0 ↔
        (r0 ≤ a.rider ∧ a.rider < r0 + fuel ∧
          (a, d) ∈ candsFromT1 duration available minDuration numTimeSlices a.rider
            numTimeSlices 0) := by
  intro fuel
  induction fuel with
  | zero =>
    intro r0 a d
    simp only [candsFromRider, List.not_mem_nil, false_iff]
    intro h
    omega
  | succ f ih =>
    intro r0 a d
    simp only [candsFromRider, List.mem_append]
    rw [ih (r0 + 1) a d]
    constructor
    · rintro (hhead | ⟨hge, hlt, hmem⟩)
      · have hr := (candsFromT1_shape duration available minDuration numTimeSlices r0
          numTimeSlices 0 (a, d) hhead).1
        simp only at hr
        refine ⟨by omega, by omega, ?_⟩
        rwa [hr]
      · exact ⟨by omega, by omega, hmem⟩
    · rintro ⟨hge, hlt, hmem⟩
      rcases Nat.eq_or_lt_of_le hge with heq | hlt2
      · left
        rwa [← heq] at hmem
      · right
        exact ⟨by omega, by omega, hmem⟩

theorem allCandidates_mem (duration : List ℚ) (available : List (List Bool))
    (minDuration : ℚ) (numRiders numTimeSlices : ℕ) (a : AuxData) (d : ℚ) :
    (a, d) ∈ allCandidates duration available minDuration numRiders numTimeSlices ↔
      (IsCandidate duration available minDuration numRiders numTimeSlices a ∧
        d = sumDur duration a.t1 a.t2) := by
  rw [allCandidates, candsFromRider_mem, candsFromT1_mem, enumFrom_mem, IsCandidate, sumDur]
  constructor
  · rintro ⟨-, hrlt, -, -, hlt, ⟨ht12, ht2, hav, hsum, hmin⟩⟩
    have hd : d = ((List.range' a.t1 (a.t2 + 1 - a.t1)).map (durAt duration)).sum := by
      rw [hsum]; ring
    refine ⟨⟨by omega, ht12, by omega, hav, by rw [← hd]; exact hmin⟩, hd⟩
  · rintro ⟨⟨hrlt, ht12, ht2, hav, hmin⟩, hd⟩
    refine ⟨by omega, by omega, rfl, by omega, by omega, ht12, by omega, hav, by rw [hd]; ring, by rw [hd]; exact hmin⟩

end scheduling

/-! ### Decoder lemmas -/

namespace scheduling

open lp

/-- `decode` is the fold of `decodeStep` over the solution's terms,
started from the all-`false` grid. -/
theorem decode_eq_fold (R T : ℕ) (sol : LinExpr) :
    decode R T sol =
      sol.terms.foldl decodeStep (List.replicate R (List.replicate T false)) := rfl

/-- `getD` after `set`: the written value exactly at an in-range index. -/
theorem getD_set_gen {α : Type} (l : List α) (i j : ℕ) (x d : α) :
    (l.set i x).getD j d = if i = j ∧ i < l.length then x else l.getD j d := by
  simp only [List.getD_eq_getElem?_getD, List.getElem?_set]
  by_cases hij : i = j
  · subst hij
    by_cases hlen : i < l.length
    · simp [hlen]
    · rw [if_pos rfl, if_neg hlen, if_neg (by omega)]
      rw [List.getElem?_eq_none (by omega)]
  · rw [if_neg hij, if_neg (by tauto)]

/-- Folding `set _ true` never changes a row's length. -/
theorem fold_set_true_length : ∀ (l : List ℕ) (row : List Bool),
    (l.foldl (fun r t2 => r.set t2 true) row).length = row.length := by
  intro l
  induction l with
  | nil => intro row; rfl
  | cons x xs ih => intro row; rw [List.foldl_cons, ih, List.length_set]

/-- `setTrueRange` preserves the row length. -/
theorem setTrueRange_length (row : List Bool) (t1 t2 : ℕ) :
    (setTrueRange row t1 t2).length = row.length := by
  rw [setTrueRange, fold_set_true_length]

/-- Reading a cell after folding `set _ true` over `range' a n`. -/
theorem fold_set_true_getD (t : ℕ) :
    ∀ (n a : ℕ) (row : List Bool),
      ((List.range' a n).foldl (fun r t2 => r.set t2 true) row).getD t false =
        if a ≤ t ∧ t < a + n ∧ t < row.length then true else row.getD t false := by
  intro n
  induction n with
  | zero =>
    intro a row
    rw [if_neg (by omega)]
    rfl
  | succ n ih =>
    intro a row
    rw [List.range'_succ, List.foldl_cons, ih (a + 1) (row.set a true),
      getD_set_gen, List.length_set]
    by_cases h : a + 1 ≤ t ∧ t < a + 1 + n ∧ t < row.length
    · rw [if_pos h, if_pos (by omega)]
    · rw [if_neg h]
      by_cases h2 : a = t ∧ a < row.length
      · rw [if_pos h2, if_pos (by omega)]
      · rw [if_neg h2, if_neg (by omega)]

/-- Cell read after `setTrueRange`: `true` inside the (in-bounds part of
the) range, unchanged elsewhere. -/
theorem setTrueRange_getD (row : List Bool) (t1 t2 t : ℕ) :
    (setTrueRange row t1 t2).getD t false =
      if t1 ≤ t ∧ t ≤ t2 ∧ t < row.length then true else row.getD t false := by
  rw [setTrueRange, fold_set_true_getD]
  by_cases h : t1 ≤ t ∧ t ≤ t2 ∧ t < row.length
  · rw [if_pos (by omega), if_pos h]
  · rw [if_neg (by omega), if_neg h]

/-- An in-range `getD` read is a member of the list. -/
theorem getD_mem_of_lt {α : Type} (l : List α) (i : ℕ) (d : α) (h : i < l.length) :
    l.getD i d ∈ l := by
  rw [List.getD_eq_getElem?_getD, List.getElem?_eq_getElem h]
  exact List.getElem_mem h

/-- `decodeStep` preserves the number of rows. -/
theorem decodeStep_length (g : List (List Bool)) (p : Var × ℚ) :
    (decodeStep g p).length = g.length := by
  unfold decodeStep
  split
  · split
    · rw [List.length_set]
    · rfl
  · rfl

/-- `decodeStep` preserves the row lengths when the aux rider index is
in range. -/
theorem decodeStep_rows (T : ℕ) (g : List (List Bool)) (p : Var × ℚ)
    (hrows : ∀ row ∈ g, row.length = T)
    (haux : ∀ a : AuxData, p.1.auxData = some a → a.rider < g.length) :
    ∀ row ∈ decodeStep g p, row.length = T := by
  unfold decodeStep
  split
  next a h =>
    have hr : a.rider < g.length := haux a h
    split
    · intro row hmem
      rcases List.mem_or_eq_of_mem_set hmem with hm | rfl
      · exact hrows row hm
      · rw [setTrueRange_length]
        exact hrows _ (getD_mem_of_lt g a.rider [] hr)
    · exact hrows
  next h => exact hrows

/-- Grid cells set by one decoder iteration: the previously set cells
plus, when the pair is an accepted candidate, the cells of its range. -/
theorem decodeStep_gridAt (R T : ℕ) (g : List (List Bool)) (p : Var × ℚ)
    (hlen : g.length = R) (hrows : ∀ row ∈ g, row.length = T)
    (haux : ∀ a : AuxData, p.1.auxData = some a → a.rider < R ∧ a.t2 < T)
    (r t : ℕ) :
    (gridAt (decodeStep g p) r t = true ↔
      (gridAt g r t = true ∨ ∃ a : AuxData, p.1.auxData = some a ∧
        (1 : ℚ)/2 < p.2 ∧ a.rider = r ∧ a.t1 ≤ t ∧ t ≤ a.t2)) := by
  unfold decodeStep
  split
  next a h =>
    obtain ⟨hR, hT⟩ := haux a h
    split
    next hc =>
      by_cases hr : a.rider = r
      · subst hr
        have hrowlen : (g.getD a.rider []).length = T :=
          hrows _ (getD_mem_of_lt g a.rider [] (by omega))
        rw [gridAt, getD_set_gen, if_pos ⟨rfl, by omega⟩, setTrueRange_getD]
        by_cases hcond : a.t1 ≤ t ∧ t ≤ a.t2
        · rw [if_pos ⟨hcond.1, hcond.2, by omega⟩]
          simp only [true_iff, h, Option.some.injEq]
          exact Or.inr ⟨a, rfl, hc, rfl, hcond.1, hcond.2⟩
        · rw [if_neg (by tauto)]
          simp only [h, Option.some.injEq, gridAt]
          constructor
          · intro hg; exact Or.inl hg
          · rintro (hg | ⟨a2, rfl, -, -, h1, h2⟩)
            · exact hg
            · exact absurd ⟨h1, h2⟩ hcond
      · rw [gridAt, getD_set_gen, if_neg (by tauto)]
        simp only [h, Option.some.injEq, gridAt]
        constructor
        · intro hg; exact Or.inl hg
        · rintro (hg | ⟨a2, rfl, -, ha2, -, -⟩)
          · exact hg
          · exact absurd ha2 hr
    next hc =>
      simp only [h, Option.some.injEq]
      constructor
      · intro hg; exact Or.inl hg
      · rintro (hg | ⟨a2, rfl, hc2, -, -⟩)
        · exact hg
        · exact absurd hc2 hc
  next h =>
    simp [h]

/-- Every cell of the initial grid is `false`. -/
theorem gridAt_replicate (R T r t : ℕ) :
    gridAt (List.replicate R (List.replicate T false)) r t = false := by
  simp only [gridAt, List.getD_eq_getElem?_getD, List.getElem?_replicate]
  split
  · rw [Option.getD_some, List.getElem?_replicate]
    split
    · rfl
    · rfl
  · rw [Option.getD_none, List.getElem?_nil]
    rfl

/-- Invariant of the decoder fold: shape is preserved and a cell is set
iff it was already set or some accepted candidate covers it. -/
theorem decode_fold (R T : ℕ) :
    ∀ (l : List (Var × ℚ)) (g : List (List Bool)),
      g.length = R → (∀ row ∈ g, row.length = T) →
      (∀ p ∈ l, ∀ a : AuxData, p.1.auxData = some a → a.rider < R ∧ a.t2 < T) →
      ((l.foldl decodeStep g).length = R ∧
        (∀ row ∈ l.foldl decodeStep g, row.length = T) ∧
        (∀ r t, gridAt (l.foldl decodeStep g) r t = true ↔
          (gridAt g r t = true ∨ ∃ p ∈ l, ∃ a : AuxData, p.1.auxData = some a ∧
            (1 : ℚ)/2 < p.2 ∧ a.rider = r ∧ a.t1 ≤ t ∧ t ≤ a.t2))) := by
  intro l
  induction l with
  | nil =>
    intro g hlen hrows _
    refine ⟨hlen, hrows, fun r t => ?_⟩
    simp
  | cons p rest ih =>
    intro g hlen hrows haux
    rw [List.foldl_cons]
    obtain ⟨h1, h2, h3⟩ := ih (decodeStep g p)
      (by rw [decodeStep_length, hlen])
      (decodeStep_rows T g p hrows
        (fun a ha => by rw [hlen]; exact (haux p (List.mem_cons_self p rest) a ha).1))
      (fun q hq a ha => haux q (List.mem_cons_of_mem p hq) a ha)
    refine ⟨h1, h2, fun r t => ?_⟩
    rw [h3 r t, decodeStep_gridAt R T g p hlen hrows (haux p (List.mem_cons_self p rest)) r t]
    constructor
    · rintro ((hg | hp) | hrest)
      · exact Or.inl hg
      · obtain ⟨a, ha⟩ := hp
        exact Or.inr ⟨p, List.mem_cons_self p rest, a, ha⟩
      · obtain ⟨q, hq, hrest2⟩ := hrest
        exact Or.inr ⟨q, List.mem_cons_of_mem p hq, hrest2⟩
    · rintro (hg | ⟨q, hq, a, ha⟩)
      · exact Or.inl (Or.inl hg)
      · rcases List.mem_cons.mp hq with rfl | hq2
        · exact Or.inl (Or.inr ⟨a, ha⟩)
        · exact Or.inr ⟨q, hq2, a, ha⟩

/-- Characterization of `decode` for solutions whose aux indices are in
range: the grid is `numRiders x numTimeSlices` and a cell `(r, t)` is set
iff some term carries aux data `(r, t1, t2)` with `t1 <= t <= t2` and a
value above `1/2`. -/
theorem decode_spec (R T : ℕ) (sol : LinExpr)
    (haux : ∀ p ∈ sol.terms, ∀ a : AuxData, p.1.auxData = some a →
      a.rider < R ∧ a.t2 < T) :
    (decode R T sol).length = R ∧
    (∀ row ∈ decode R T sol, row.length = T) ∧
    (∀ r t, gridAt (decode R T sol) r t = true ↔
      ∃ p ∈ sol.terms, ∃ a : AuxData, p.1.auxData = some a ∧
        (1 : ℚ)/2 < p.2 ∧ a.rider = r ∧ a.t1 ≤ t ∧ t ≤ a.t2) := by
  rw [decode_eq_fold]
  obtain ⟨h1, h2, h3⟩ := decode_fold R T sol.terms
    (List.replicate R (List.replicate T false))
    (by simp) (by intro row h; simp [List.eq_of_mem_replicate h]) haux
  refine ⟨h1, h2, fun r t => ?_⟩
  rw [h3 r t, gridAt_replicate]
  simp

end scheduling

/-! ### Rendering lemmas -/

namespace lp

/-- `LinExpr.render` as a `joinSep` of per-index items. -/
theorem render_eq_join (e : LinExpr) :
    e.render = joinSep " " (e.terms.enum.map renderItem) := rfl

/-- Accumulator lemma for the `String.join` fold. -/
theorem joinAux (l : List String) :
    ∀ (x : String), l.foldl (· ++ ·) x = x ++ l.foldl (· ++ ·) "" := by
  induction l with
  | nil => intro x; simp
  | cons a l ih =>
    intro x
    rw [List.foldl_cons, ih (x ++ a), List.foldl_cons, ih ("" ++ a),
      String.empty_append, String.append_assoc]

/-- `String.join` over a cons. -/
theorem joinCons (a : String) (l : List String) :
    String.join (a :: l) = a ++ String.join l := by
  show (a :: l).foldl (· ++ ·) "" = a ++ l.foldl (· ++ ·) ""
  rw [List.foldl_cons, String.empty_append, joinAux]

/-- `String.join` distributes over list append. -/
theorem joinAppend (l1 l2 : List String) :
    String.join (l1 ++ l2) = String.join l1 ++ String.join l2 := by
  induction l1 with
  | nil => rw [List.nil_append]; show _ = "" ++ _; rw [String.empty_append]
  | cons a l ih => rw [List.cons_append, joinCons, joinCons, ih, String.append_assoc]

/-- Token arithmetic: a join space before a bare minus. -/
theorem spMinus : (" " : String) ++ "- " = " - " := rfl

/-- Token arithmetic: a join space before a plus. -/
theorem spPlus : (" " : String) ++ "+ " = " + " := rfl

/-- The first rendered term carries no leading join token. -/
theorem renderItem_zero (p : Var × ℚ) :
    renderItem (0, p) = (if p.2 < 0 then "- " else "") ++ specTerm p := by
  rcases p with ⟨v, c⟩
  simp only [renderItem, specTerm]
  by_cases hc : c < 0
  · simp [hc, String.append_assoc]
  · simp [hc, String.append_assoc]

/-- A later rendered term carries a `+ `/`- ` join token. -/
theorem renderItem_pos (i : ℕ) (hi : i ≠ 0) (p : Var × ℚ) :
    renderItem (i, p) = (if p.2 < 0 then "- " else "+ ") ++ specTerm p := by
  rcases p with ⟨v, c⟩
  simp only [renderItem, specTerm]
  rw [if_neg hi]
  by_cases hc : c < 0
  · simp [hc, String.append_assoc]
  · simp [hc, String.append_assoc]

/-- The space-joined tail of the rendering equals the spec's
joined tail. -/
theorem joinSep_render_tail (rest : List (Var × ℚ)) :
    ∀ (i : ℕ), i ≠ 0 → ∀ (s : String),
      joinSep " " (s :: (rest.enumFrom i).map renderItem) =
        s ++ String.join (rest.map specTailItem) := by
  induction rest with
  | nil =>
    intro i _ s
    show s = s ++ String.join []
    rw [show String.join [] = "" from rfl, String.append_empty]
  | cons q rest ih =>
    intro i hi s
    rw [List.enumFrom_cons, List.map_cons]
    show s ++ " " ++ joinSep " " (renderItem (i, q) :: (rest.enumFrom (i + 1)).map renderItem) = _
    rw [ih (i + 1) (by omega), List.map_cons, joinCons, renderItem_pos i hi]
    simp only [specTailItem]
    by_cases hc : q.2 < 0
    · rw [if_pos hc, if_pos hc]
      simp only [String.append_assoc]
      rw [← String.append_assoc " " "- ", spMinus]
    · rw [if_neg hc, if_neg hc]
      simp only [String.append_assoc]
      rw [← String.append_assoc " " "+ ", spPlus]

/-- The source's term rendering equals the spec's reading of it. -/
theorem render_eq_spec (e : LinExpr) : e.render = specExprStr e := by
  rcases e with ⟨ts⟩
  cases ts with
  | nil => rfl
  | cons p rest =>
    rw [render_eq_join]
    show joinSep " " (((p :: rest).enum).map renderItem) = _
    rw [List.enum_cons, List.map_cons, joinSep_render_tail rest 1 one_ne_zero,
      renderItem_zero]
    rfl


/-- For a named constraint, `Constraint.toLP` equals the spec's
constraint line. -/
theorem toLP_eq_spec (con : Constraint) (hname : con.name ≠ "") :
    con.toLP = specConstraintLine con := by
  rcases con with ⟨name, lb, ub, expr⟩
  rcases lb with _ | lb <;> rcases ub with _ | ub <;>
    simp [Constraint.toLP, Constraint.render, specConstraintLine, hname,
      render_eq_spec, String.append_assoc]

/-- Generated bound constraints always have a nonempty name. -/
theorem toConstraint_name_ne (v : Var) : (v.toConstraint).name ≠ "" := by
  intro h
  have : ("c[" ++ v.name ++ "]").data = ("" : String).data := congrArg String.data h
  simp [String.data_append] at this

/-- `String.join` of a singleton. -/
theorem joinSingleton (x : String) : String.join [x] = x := by
  rw [joinCons, show String.join [] = "" from rfl, String.append_empty]

/-- Token arithmetic: semicolon before newline. -/
theorem semiNl : (";" : String) ++ "\n" = ";\n" := rfl

/-- `String.join` of the empty list. -/
theorem joinNil : String.join ([] : List String) = "" := rfl

/-- `exportAsLP` produces exactly the spec's export text, applied to
the saturated objective, whenever all constraint names are nonempty. -/
theorem exportAsLP_ok_spec (objective : LinExpr) (constraints : List Constraint)
    (hnames : ∀ con ∈ constraints, con.name ≠ "") (sat : LinExpr)
    (hsat : saturate objective constraints = .ok sat) :
    exportAsLP objective constraints = .ok (specExportStr objective constraints sat) := by
  rw [exportAsLP]
  simp only [Bind.bind, Except.bind, hsat, pure, Except.pure]
  congr 1
  simp only [specExportStr, LinExpr.getVarCoefficients]
  rw [List.filter_filter]
  have hpred : (fun v => (v.lowerBound.isSome || v.upperBound.isSome) && !Var.isBool v) =
      (fun v => !Var.isBool v && (v.lowerBound.isSome || v.upperBound.isSome)) := by
    funext v
    exact Bool.and_comm _ _
  rw [hpred]
  simp only [List.map_append, joinAppend, List.map_cons, List.map_nil, joinSingleton]
  rw [render_eq_spec objective]
  have hJ2 : ∀ vs : List Var,
      String.join ((vs.map Var.toConstraint).map fun con => con.toLP ++ ";\n") =
        String.join ((vs.map fun v => specConstraintLine v.toConstraint ++ ";").map
          fun s => s ++ "\n") := by
    intro vs
    rw [List.map_map, List.map_map]
    refine congrArg String.join (List.map_congr_left fun v _ => ?_)
    simp only [Function.comp]
    rw [toLP_eq_spec _ (toConstraint_name_ne v), String.append_assoc, semiNl]
  have hJ3 : String.join (constraints.map fun con => con.toLP ++ ";\n") =
      String.join ((constraints.map fun con => specConstraintLine con ++ ";").map
        fun s => s ++ "\n") := by
    rw [List.map_map]
    refine congrArg String.join (List.map_congr_left fun con hc => ?_)
    simp only [Function.comp]
    rw [toLP_eq_spec _ (hnames con hc), String.append_assoc, semiNl]
  rw [hJ2, hJ3]
  rw [← semiNl]
  simp only [String.append_assoc, String.empty_append]
  by_cases hbin : ((sat.terms.map fun p => p.1).filter fun v => v.isBool).isEmpty <;>
    by_cases hint : ((sat.terms.map fun p => p.1).filter fun v => v.isInt).isEmpty <;>
      simp [hbin, hint, joinSingleton, joinNil, String.append_assoc,
        String.append_empty]

end lp

/-! ### Validation failure lemmas -/

namespace scheduling

open lp

/-- When any of the ten shape checks fails, `makeLP` short-circuits at
the first failing `assert` with a message-less error. -/
theorem makeLP_invalid (duration expected : List ℚ)
    (expectedOfType : List (String × List ℚ)) (riderType : List String)
    (available : List (List Bool)) (guaranteed : List ℚ) (minDuration : ℚ)
    (h : validInputB duration expected expectedOfType riderType available
      guaranteed = false) :
    makeLP duration expected expectedOfType riderType available guaranteed
      minDuration = .error none := by
  rw [validInputB] at h
  rw [makeLP]
  simp only [assert, Bind.bind]
  by_cases h1 : (duration.length == expected.length) = true
  swap
  · rw [if_neg h1] <;> rfl
  rw [if_pos h1]
  simp only [Except.bind]
  by_cases h2 : (expected.length == expected.length) = true
  swap
  · rw [if_neg h2] <;> rfl
  rw [if_pos h2]
  simp only [Except.bind]
  by_cases h3 : ((expectedOfType.map fun p => p.1).all fun ty => ((expectedOfType.lookup ty).getD []).length == expected.length) = true
  swap
  · rw [if_neg h3] <;> rfl
  rw [if_pos h3]
  simp only [Except.bind]
  by_cases h4 : (riderType.length == guaranteed.length) = true
  swap
  · rw [if_neg h4] <;> rfl
  rw [if_pos h4]
  simp only [Except.bind]
  by_cases h5 : (available.length == expected.length) = true
  swap
  · rw [if_neg h5] <;> rfl
  rw [if_pos h5]
  simp only [Except.bind]
  by_cases h6 : (available.all fun a => a.length == guaranteed.length) = true
  swap
  · rw [if_neg h6] <;> rfl
  rw [if_pos h6]
  simp only [Except.bind]
  by_cases h7 : (guaranteed.length == guaranteed.length) = true
  swap
  · rw [if_neg h7] <;> rfl
  rw [if_pos h7]
  simp only [Except.bind]
  by_cases h8 : (duration.all fun d => decide (0 ≤ d)) = true
  swap
  · rw [if_neg h8] <;> rfl
  rw [if_pos h8]
  simp only [Except.bind]
  by_cases h9 : (expected.all fun count => decide (0 ≤ count) && decide (count ≤ (guaranteed.length : ℚ))) = true
  swap
  · rw [if_neg h9] <;> rfl
  rw [if_pos h9]
  simp only [Except.bind]
  by_cases h10 : (riderType.all fun ty => (expectedOfType.lookup ty).isSome) = true
  swap
  · rw [if_neg h10] <;> rfl
  rw [if_pos h10]
  simp only [Except.bind]
  exact absurd h (by simp [h1, h2, h3, h4, h5, h6, h7, h8, h9, h10])

end scheduling

/-! ### Concrete evaluations on the one-slot instance -/

namespace scheduling

open lp

/-- `Nat.repr` at 0, as a string literal. -/
theorem reprZero : Nat.repr 0 = "0" := rfl

/-- The candidate name of the one-slot instance. -/
theorem candName000 : candName 0 0 0 = "a[0][0..0]" := rfl

/-- The time-variable name of rider 0. -/
theorem timeName0 : timeName 0 = "time[0]" := rfl

/-- The timeCounted constraint name of rider 0. -/
theorem timeCountedName0 : timeCountedName 0 = "timeCounted[0]" := rfl

/-- The enough constraint name of slot 0. -/
theorem enoughName0 : enoughName 0 = "enough[0]" := rfl

/-- The per-type enough constraint name of slot 0 for type bike. -/
theorem enoughTypeName0 : enoughTypeName "bike" 0 = "enough[bike][0]" := rfl

/-- The disjoint constraint name of rider 0, slot 0. -/
theorem disjointName00 : disjointName 0 0 = "disjoint[0][0]" := rfl

/-- The one-slot instance passes validation. -/
theorem validC3 : validInputB durC3 expC3 eotC3 rtC3 avC3 guC3 = true := by
  norm_num +decide [validInputB, durC3, expC3, eotC3, rtC3, avC3, guC3, List.all,
    List.lookup]

/-- `makeLP` on the one-slot instance builds exactly `lpC3`. -/
theorem makeLP_C3 : makeLP durC3 expC3 eotC3 rtC3 avC3 guC3 1 = .ok lpC3 := by
  norm_num +decide [makeLP, assert, riderLoop, t1Loop, t2Loop, addCandidate, slotLoop,
    setCoeffAt, setCoeffOpt, updateAssoc, timeLoop, durC3, expC3, eotC3, rtC3, avC3,
    guC3, LinExpr.setCoefficient, Constraint.setCoefficient, setCoeffList,
    LinExpr.empty, availAt, durAt, candVarOf, timeVarOf, candName000, timeName0,
    timeCountedName0, enoughName0, enoughTypeName0, disjointName00, BoolVar, IntVar,
    RealVar, List.lookup, List.enum, List.enumFrom, List.range_succ, List.range_zero,
    lpC3, vA3, vT3, Bind.bind, Except.bind, Except.map, List.all, List.filterMap,
    List.flatMap, defCon, List.getD, Option.getD, List.set, Option.map, List.flatten,
    Var.mk.injEq, AuxData.mk.injEq]

/-- The all-ones valuation satisfies every constraint and bound of `lpC3`. -/
theorem satLPB_C3 : satLPB oneVal lpC3 = true := by
  norm_num +decide [satLPB, satConB, varOKB, lpVars, evalExpr, lpC3, vA3, vT3, oneVal,
    List.all, List.flatMap, Option.all]

/-- On `lpC3` under the all-ones valuation, the candidate sum reaches `K`. -/
theorem candSum_C3 : candSum oneVal lpC3 = (candCount lpC3 : ℚ) := by
  norm_num +decide [candSum, candCount, candTerms, lpC3, vA3, vT3, oneVal, List.filter]

/-- The all-ones valuation is 0/1 on the candidates of `lpC3`. -/
theorem cand01_C3 : ∀ p ∈ candTerms lpC3, oneVal p.1.name = 0 ∨ oneVal p.1.name = 1 := by
  intro p hp
  right
  rfl

/-- Solving `lpC3` with the all-ones oracle decodes to the full grid. -/
theorem runSolve_C3 : runSolve lpC3 (some oneVal) = .ok (some [[true]]) := by
  norm_num +decide [runSolve, minimize, saturate, decode, setTrueRange, lpC3, vA3, vT3,
    oneVal, LinExpr.setCoefficient, setCoeffList, LinExpr.empty,
    LinExpr.getVarCoefficients, Bind.bind, Except.bind, Except.map, Pure.pure,
    Except.pure, List.foldlM, List.foldl, List.range', List.replicate, List.set,
    List.getD, Option.getD, Var.mk.injEq]

/-- Saturating the objective of `lpC3` against its constraints. -/
theorem saturate_C3 :
    saturate lpC3.objective lpC3.constraints = .ok ⟨[(vA3, 1), (vT3, 1)]⟩ := by
  norm_num +decide [saturate, lpC3, vA3, vT3, LinExpr.setCoefficient, setCoeffList,
    LinExpr.empty, LinExpr.getVarCoefficients, Bind.bind, Except.bind, Except.map,
    Pure.pure, Except.pure, List.foldlM, Var.mk.injEq]

end scheduling

/-! ### Shared model-level lemmas -/

namespace scheduling

open lp

/-- The shape facts of `makeLP_ok_spec`, transported to a given model. -/
theorem makeLP_model_eq {duration expected : List ℚ}
    {expectedOfType : List (String × List ℚ)} {riderType : List String}
    {available : List (List Bool)} {guaranteed : List ℚ} {minDuration : ℚ} {model : LP}
    (hvalid : validInputB duration expected expectedOfType riderType available
      guaranteed = true)
    (hmk : makeLP duration expected expectedOfType riderType available guaranteed
      minDuration = .ok model) :
    model.objective.terms =
      (allCandidates duration available minDuration guaranteed.length
        expected.length).map (fun q => (candVarOf q.1, 1)) ++
      (List.range guaranteed.length).map (fun r => (timeVarOf guaranteed r,
        ((allCandidates duration available minDuration guaranteed.length
          expected.length).length : ℚ))) ∧
    (∀ con ∈ model.constraints, ∀ p ∈ con.expr.terms,
      p.1 ∈ (allCandidates duration available minDuration guaranteed.length
        expected.length).map (fun q => candVarOf q.1) ∨
      ∃ r, p.1 = timeVarOf guaranteed r) ∧
    model.numRiders = guaranteed.length ∧ model.numTimeSlices = expected.length := by
  obtain ⟨model2, hmk2, h1, h2, h3, h4⟩ := makeLP_ok_spec duration expected
    expectedOfType riderType available guaranteed minDuration hvalid
  rw [hmk] at hmk2
  injection hmk2 with h
  subst h
  exact ⟨h1, h2, h3, h4⟩

/-- The candidate terms of a built model are exactly the enumerated
candidates, each with coefficient 1. -/
theorem candTerms_makeLP {duration expected : List ℚ}
    {expectedOfType : List (String × List ℚ)} {riderType : List String}
    {available : List (List Bool)} {guaranteed : List ℚ} {minDuration : ℚ} {model : LP}
    (hvalid : validInputB duration expected expectedOfType riderType available
      guaranteed = true)
    (hmk : makeLP duration expected expectedOfType riderType available guaranteed
      minDuration = .ok model) :
    candTerms model =
      (allCandidates duration available minDuration guaranteed.length
        expected.length).map (fun q => (candVarOf q.1, 1)) := by
  obtain ⟨hobj, -, -, -⟩ := makeLP_model_eq hvalid hmk
  rw [candTerms, hobj, List.filter_append,
    List.filter_eq_self.mpr ?hc, List.filter_eq_nil_iff.mpr ?ht, List.append_nil]
  case hc =>
    intro x hx
    obtain ⟨q, -, hq⟩ := List.mem_map.mp hx
    rw [← hq]
    simp [candVarOf_auxData]
  case ht =>
    intro x hx
    obtain ⟨r, -, hr⟩ := List.mem_map.mp hx
    rw [← hr]
    simp [timeVarOf_auxData]

/-- A list of rationals each at most 1 sums to at most its length. -/
theorem sum_le_card : ∀ l : List ℚ, (∀ x ∈ l, x ≤ 1) → l.sum ≤ (l.length : ℚ) := by
  intro l
  induction l with
  | nil => intro _; simp
  | cons x xs ih =>
    intro h
    rw [List.sum_cons, List.length_cons]
    have h1 : x ≤ 1 := h x (List.mem_cons_self x xs)
    have h2 : xs.sum ≤ (xs.length : ℚ) := ih fun y hy => h y (List.mem_cons_of_mem x hy)
    push_cast
    linarith

end scheduling

/-! ### Claim theorems -/

namespace scheduling

open lp

/-- C1 (amended): in the objective built by `makeLP`, every continuous
`time[rider]` variable receives coefficient `K`, where `K` is the total
number of candidate variables of the instance (`candCount`), and `K`
bounds every achievable 0/1 candidate sum: for every valuation that
satisfies the model's constraints and bounds and takes 0/1 values on the
candidate variables, the sum of the unit-weighted candidate terms is at
most `K` (the original claim's strict bound fails: the sum can reach
`K`). -/
theorem claim_C1_objective_weight
    (duration expected : List ℚ) (expectedOfType : List (String × List ℚ))
    (riderType : List String) (available : List (List Bool)) (guaranteed : List ℚ)
    (minDuration : ℚ) (model : LP) (σ : String → ℚ)
    (hvalid : validInputB duration expected expectedOfType riderType available
      guaranteed = true)
    (hmk : makeLP duration expected expectedOfType riderType available guaranteed
      minDuration = .ok model)
    (hach : satLPB σ model = true)
    (h01 : ∀ p ∈ candTerms model, σ p.1.name = 0 ∨ σ p.1.name = 1) :
    (∀ p ∈ model.objective.terms, p.1.isReal = true → p.2 = (candCount model : ℚ)) ∧
    candSum σ model ≤ (candCount model : ℚ) := by
  have hct := candTerms_makeLP hvalid hmk
  have hK : candCount model =
      (allCandidates duration available minDuration guaranteed.length
        expected.length).length := by
    rw [candCount, hct, List.length_map]
  obtain ⟨hobj, -, -, -⟩ := makeLP_model_eq hvalid hmk
  constructor
  · intro p hp hreal
    rw [hobj] at hp
    rcases List.mem_append.mp hp with h | h
    · obtain ⟨q, -, hq⟩ := List.mem_map.mp h
      have hfalse : p.1.isReal = false := by rw [← hq]; rfl
      rw [hreal] at hfalse
      cases hfalse
    · obtain ⟨r, -, hr⟩ := List.mem_map.mp h
      rw [← hr, hK]
  · rw [candSum]
    have hb := sum_le_card ((candTerms model).map fun p => σ p.1.name) ?h1
    · rwa [List.length_map] at hb
    case h1 =>
      intro x hx
      obtain ⟨p, hp, hxe⟩ := List.mem_map.mp hx
      rcases h01 p hp with h0 | h1
      · rw [← hxe, h0]
        norm_num
      · rw [← hxe, h1]

/-- C1 counterexample: on the one-slot instance, the all-ones valuation is
achievable under the built model and 0/1 on the candidates, yet its
candidate sum is not strictly below `K` — it equals `K`, refuting the
original strict priority bound. -/
theorem claim_C1_counterexample :
    makeLP durC3 expC3 eotC3 rtC3 avC3 guC3 1 = .ok lpC3 ∧
    satLPB oneVal lpC3 = true ∧
    (∀ p ∈ candTerms lpC3, oneVal p.1.name = 0 ∨ oneVal p.1.name = 1) ∧
    ¬(candSum oneVal lpC3 < (candCount lpC3 : ℚ)) :=
  ⟨makeLP_C3, satLPB_C3, cand01_C3, by rw [candSum_C3]; exact lt_irrefl _⟩

/-- Witness for C1 at the one-slot instance. -/
theorem claim_C1_witness :
    (∀ p ∈ lpC3.objective.terms, p.1.isReal = true → p.2 = (candCount lpC3 : ℚ)) ∧
    candSum oneVal lpC3 ≤ (candCount lpC3 : ℚ) :=
  claim_C1_objective_weight durC3 expC3 eotC3 rtC3 avC3 guC3 1 lpC3 oneVal
    validC3 makeLP_C3 satLPB_C3 cand01_C3

/-- C2: for every valid input, the built model has a candidate variable
carrying aux data `a` exactly when `a` is a shift candidate: the courier
index is in range, `t1 ≤ t2 < numTimeSlices`, the courier is available on
every slot of `[t1, t2]`, and the accumulated duration reaches
`minDuration` (`IsCandidate`). -/
theorem claim_C2_candidates
    (duration expected : List ℚ) (expectedOfType : List (String × List ℚ))
    (riderType : List String) (available : List (List Bool)) (guaranteed : List ℚ)
    (minDuration : ℚ) (model : LP)
    (hvalid : validInputB duration expected expectedOfType riderType available
      guaranteed = true)
    (hmk : makeLP duration expected expectedOfType riderType available guaranteed
      minDuration = .ok model)
    (a : AuxData) :
    (∃ p ∈ model.objective.terms, p.1.auxData = some a) ↔
      IsCandidate duration available minDuration guaranteed.length expected.length a := by
  obtain ⟨hobj, -, -, -⟩ := makeLP_model_eq hvalid hmk
  constructor
  · rintro ⟨p, hp, haux⟩
    rw [hobj] at hp
    rcases List.mem_append.mp hp with h | h
    · obtain ⟨q, hq, hpe⟩ := List.mem_map.mp h
      rw [← hpe] at haux
      simp only [candVarOf_auxData, Option.some.injEq] at haux
      have hic := (allCandidates_mem duration available minDuration guaranteed.length
        expected.length q.1 q.2).mp hq
      rw [← haux]
      exact hic.1
    · obtain ⟨r, -, hpe⟩ := List.mem_map.mp h
      rw [← hpe] at haux
      simp [timeVarOf_auxData] at haux
  · intro hic
    refine ⟨(candVarOf a, 1), ?_, candVarOf_auxData a⟩
    rw [hobj]
    apply List.mem_append_left
    exact List.mem_map.mpr ⟨(a, sumDur duration a.t1 a.t2),
      (allCandidates_mem duration available minDuration guaranteed.length
        expected.length a (sumDur duration a.t1 a.t2)).mpr ⟨hic, rfl⟩, rfl⟩

/-- Witness for C2: the one-slot instance has the candidate `(0, 0, 0)`. -/
theorem claim_C2_witness :
    ∃ p ∈ lpC3.objective.terms, p.1.auxData = some ⟨0, 0, 0⟩ :=
  (claim_C2_candidates durC3 expC3 eotC3 rtC3 avC3 guC3 1 lpC3 validC3 makeLP_C3
    ⟨0, 0, 0⟩).mpr (by
      refine ⟨by norm_num [guC3], by decide, by norm_num [expC3], ?_, ?_⟩
      · intro t h1 h2
        have ht : t = 0 := Nat.le_zero.mp h2
        subst ht
        rfl
      · norm_num +decide [sumDur, durAt, durC3, List.range'])

/-- C3: on the one-timeslice instance (duration 1, demand 1, one bike
courier with per-type demand 0, available, guaranteed 0, minDuration 1)
`makeLP` builds exactly the model `lpC3`: the boolean candidate
`a[0][0..0]`, the continuous `time[0]` with lower bound 0 and no upper
bound, the constraints `timeCounted[0]`, `enough[0]` and
`disjoint[0][0]` with exactly the claimed bounds and coefficients, and
nothing else. -/
theorem claim_C3_end_to_end : makeLP durC3 expC3 eotC3 rtC3 avC3 guC3 1 = .ok lpC3 :=
  makeLP_C3

/-- C4 (amended): every input violating the shape rules makes `makeLP`
fail at the first failing check, before any variable or constraint is
created — but the thrown error carries no message at all (`assert` is
called without its optional message argument everywhere), so the error
does not name the offending field. -/
theorem claim_C4_invalid_input (duration expected : List ℚ)
    (expectedOfType : List (String × List ℚ)) (riderType : List String)
    (available : List (List Bool)) (guaranteed : List ℚ) (minDuration : ℚ)
    (h : validInputB duration expected expectedOfType riderType available
      guaranteed = false) :
    makeLP duration expected expectedOfType riderType available guaranteed
      minDuration = .error none :=
  makeLP_invalid duration expected expectedOfType riderType available guaranteed
    minDuration h

/-- C4 counterexample: a negative duration makes `makeLP` fail, but the
error carries no message, not an `InputShapeError` naming the field. -/
theorem claim_C4_counterexample :
    makeLP [-1] [0] [] [] [[]] [] 0 = .error none := by
  norm_num [makeLP, assert, Bind.bind, Except.bind, List.all]

/-- Witness for C4: a duration array of the wrong length. -/
theorem claim_C4_witness : makeLP [] [0] [] [] [[]] [] 0 = .error none :=
  claim_C4_invalid_input [] [0] [] [] [[]] [] 0 (by
    norm_num [validInputB, List.all, List.lookup])

/-- C5: the decoder builds a `numRiders x numTimeSlices` grid whose
entries default to `false`; a cell `(r, t)` is set exactly when some
solution term carries aux data `(r, t1, t2)` with `t1 ≤ t ≤ t2` and a
value strictly above `1/2` (so value `1/2` itself never assigns, any
larger value does, and terms without aux data never affect the grid). -/
theorem claim_C5_decode (R T : ℕ) (sol : LinExpr)
    (haux : ∀ p ∈ sol.terms, ∀ a : AuxData, p.1.auxData = some a →
      a.rider < R ∧ a.t2 < T) :
    (decode R T sol).length = R ∧
    (∀ row ∈ decode R T sol, row.length = T) ∧
    (∀ r t, gridAt (decode R T sol) r t = true ↔
      ∃ p ∈ sol.terms, ∃ a : AuxData, p.1.auxData = some a ∧
        (1 : ℚ)/2 < p.2 ∧ a.rider = r ∧ a.t1 ≤ t ∧ t ≤ a.t2) :=
  decode_spec R T sol haux

/-- Witness for C5: a candidate at value `1/2` does not assign its slot,
one at `501/1000` does. -/
theorem claim_C5_witness :
    gridAt (decode 1 2 ⟨[(candVarOf ⟨0, 0, 0⟩, 1/2),
      (candVarOf ⟨0, 1, 1⟩, 501/1000)]⟩) 0 1 = true ∧
    gridAt (decode 1 2 ⟨[(candVarOf ⟨0, 0, 0⟩, 1/2),
      (candVarOf ⟨0, 1, 1⟩, 501/1000)]⟩) 0 0 = false := by
  have hspec := claim_C5_decode 1 2 ⟨[(candVarOf ⟨0, 0, 0⟩, 1/2),
      (candVarOf ⟨0, 1, 1⟩, 501/1000)]⟩ (by
    intro p hp a ha
    rcases List.mem_cons.mp hp with h | h
    · rw [h] at ha
      simp only [candVarOf_auxData, Option.some.injEq] at ha
      rw [← ha]
      exact ⟨by decide, by decide⟩
    · rw [List.mem_singleton.mp h] at ha
      simp only [candVarOf_auxData, Option.some.injEq] at ha
      rw [← ha]
      exact ⟨by decide, by decide⟩)
  constructor
  · exact (hspec.2.2 0 1).mpr ⟨(candVarOf ⟨0, 1, 1⟩, 501/1000),
      by simp, ⟨0, 1, 1⟩, rfl, by norm_num, rfl, by decide, by decide⟩
  · rw [Bool.eq_false_iff]
    intro htrue
    obtain ⟨p, hp, a, ha, hval, hr, ht1, ht2⟩ := (hspec.2.2 0 0).mp htrue
    rcases List.mem_cons.mp hp with h | h
    · rw [h] at hval
      norm_num at hval
    · rw [List.mem_singleton.mp h] at ha
      simp only [candVarOf_auxData, Option.some.injEq] at ha
      rw [← ha] at ht1
      exact absurd ht1 (by decide)

/-- C6: when the oracle reports no solution, `runSolve` returns the
explicit absent result (`none`, the source's `undefined`): no grid is
constructed and the decoder never runs. -/
theorem claim_C6_no_solution (model : LP) (sat : LinExpr)
    (hsat : saturate model.objective model.constraints = .ok sat) :
    runSolve model none = .ok none :=
  runSolve_oracle_none hsat

/-- Witness for C6 on the one-slot model. -/
theorem claim_C6_witness : runSolve lpC3 none = .ok none :=
  claim_C6_no_solution lpC3 ⟨[(vA3, 1), (vT3, 1)]⟩ saturate_C3

end scheduling

namespace lp

/-- C7: for every objective and constraint list on which saturation
succeeds (with well-formed objective names), the saturated expression's
variable set is exactly the union of the variables referenced in the
constraints and the variables of the objective; variables appearing only
in constraints receive coefficient 0, and every original objective term
is kept with its original coefficient. -/
theorem claim_C7_saturate (objective : LinExpr) (constraints : List Constraint)
    (res : LinExpr)
    (hwf : (objective.terms.map fun p => p.1.name).Nodup)
    (h : saturate objective constraints = .ok res) :
    (∀ v : Var, (∃ c, (v, c) ∈ res.terms) ↔
      (v ∈ constraintVars constraints ∨ ∃ c, (v, c) ∈ objective.terms)) ∧
    (∀ p ∈ objective.terms, p ∈ res.terms) ∧
    (∀ q ∈ res.terms, (∀ p ∈ objective.terms, p.1.name ≠ q.1.name) → q.2 = 0) := by
  obtain ⟨hnodup, hiff, hcoll⟩ := saturate_ok_spec hwf h
  refine ⟨?_, ?_, ?_⟩
  · intro v
    constructor
    · rintro ⟨c, hc⟩
      rcases (hiff (v, c)).mp hc with h1 | ⟨h0, hcv, -⟩
      · exact Or.inr ⟨c, h1⟩
      · exact Or.inl hcv
    · rintro (hv | ⟨c, hc⟩)
      · by_cases hex : ∃ p ∈ objective.terms, p.1.name = v.name
        · obtain ⟨p, hp, hpn⟩ := hex
          have hpv : p.1 = v := hcoll v hv p hp hpn
          refine ⟨p.2, ?_⟩
          have hmem : p ∈ res.terms := (hiff p).mpr (Or.inl hp)
          rw [← hpv]
          exact hmem
        · push_neg at hex
          exact ⟨0, (hiff (v, 0)).mpr (Or.inr ⟨rfl, hv, fun p hp => hex p hp⟩)⟩
      · exact ⟨c, (hiff (v, c)).mpr (Or.inl hc)⟩
  · intro p hp
    exact (hiff p).mpr (Or.inl hp)
  · intro q hq hfresh
    rcases (hiff q).mp hq with h1 | ⟨h0, -, -⟩
    · exact absurd rfl (hfresh q h1)
    · exact h0

end lp

namespace scheduling

open lp

/-- Saturation of a time-only objective against the one-slot constraints:
the candidate variable enters with coefficient 0, the objective
coefficient survives. -/
theorem saturate_C7 :
    saturate ⟨[(vT3, 2)]⟩ lpC3.constraints = .ok ⟨[(vA3, 0), (vT3, 2)]⟩ := by
  norm_num +decide [saturate, lpC3, vA3, vT3, LinExpr.setCoefficient, setCoeffList,
    LinExpr.empty, LinExpr.getVarCoefficients, Bind.bind, Except.bind, Except.map,
    Pure.pure, Except.pure, List.foldlM, Var.mk.injEq]

/-- Witness for C7 on the one-slot constraints with a time-only
objective. -/
theorem claim_C7_witness :
    (∀ v : Var, (∃ c, (v, c) ∈ (⟨[(vA3, 0), (vT3, 2)]⟩ : LinExpr).terms) ↔
      (v ∈ constraintVars lpC3.constraints ∨
        ∃ c, (v, c) ∈ (⟨[(vT3, 2)]⟩ : LinExpr).terms)) ∧
    (∀ p ∈ (⟨[(vT3, 2)]⟩ : LinExpr).terms,
      p ∈ (⟨[(vA3, 0), (vT3, 2)]⟩ : LinExpr).terms) ∧
    (∀ q ∈ (⟨[(vA3, 0), (vT3, 2)]⟩ : LinExpr).terms,
      (∀ p ∈ (⟨[(vT3, 2)]⟩ : LinExpr).terms, p.1.name ≠ q.1.name) → q.2 = 0) :=
  claim_C7_saturate ⟨[(vT3, 2)]⟩ lpC3.constraints ⟨[(vA3, 0), (vT3, 2)]⟩
    (by simp [vT3]) saturate_C7

/-- C8: whenever `exportAsLP` succeeds on named constraints, its output is
exactly the spec's LP text: the `minimize: <terms>;` line, one
`<name>: [<lower> <=] <terms> [<= <upper>];` line per constraint with the
generated bound constraints of the bounded non-boolean variables first, a
blank separator line, then the optional `bin`/`int` declaration lines —
with terms rendered by `specExprStr` (coefficient 1 omitted, -1 a bare
minus, single-space `+`/`-` joins, no leading token on the first term). -/
theorem claim_C8_export (objective : LinExpr) (constraints : List Constraint)
    (out : String)
    (hnames : ∀ con ∈ constraints, con.name ≠ "")
    (h : exportAsLP objective constraints = .ok out) :
    ∃ sat, saturate objective constraints = .ok sat ∧
      out = specExportStr objective constraints sat := by
  cases hs : saturate objective constraints with
  | error e =>
    rw [exportAsLP] at h
    simp only [Bind.bind, Except.bind, hs] at h
    cases h
  | ok sat =>
    refine ⟨sat, rfl, ?_⟩
    have h2 := exportAsLP_ok_spec objective constraints hnames sat hs
    rw [h] at h2
    injection h2

/-- Witness for C8 on the empty model. -/
theorem claim_C8_witness :
    ∃ sat, saturate ⟨[]⟩ [] = .ok sat ∧
      "minimize: ;\n\n" = specExportStr ⟨[]⟩ [] sat :=
  claim_C8_export ⟨[]⟩ [] "minimize: ;\n\n" (by simp) rfl

end scheduling

namespace lp

/-- C9: `setCoefficient` fails with the name-collision error when a
different variable instance already occupies the name, and otherwise
registers the variable and stores the coefficient, overwriting — never
accumulating — on a second call: after setting `c1` then `c2` the stored
coefficient is `c2`. -/
theorem claim_C9_setCoefficient (e : LinExpr) (v : Var) (c1 c2 : ℚ) :
    ((∃ p ∈ e.terms, p.1.name = v.name ∧ p.1 ≠ v) →
      e.setCoefficient v c1 =
        .error (some ("Mismatching variable named " ++ v.name))) ∧
    ((∀ p ∈ e.terms, p.1.name = v.name → p.1 = v) →
      ∃ e1 e2, e.setCoefficient v c1 = .ok e1 ∧
        e1.lookupCoeff v.name = some c1 ∧
        e1.setCoefficient v c2 = .ok e2 ∧
        e2.lookupCoeff v.name = some c2) := by
  constructor
  · rintro ⟨p, hp, hpn, hpv⟩
    exact setCoefficient_error e v c1 fun hall => hpv (hall p hp hpn)
  · intro hall
    refine ⟨⟨setCoeffList e.terms v c1⟩, ⟨setCoeffList (setCoeffList e.terms v c1) v c2⟩,
      setCoefficient_ok e v c1 hall, ?_, ?_, ?_⟩
    · rw [lookupCoeff_setCoeffList, if_pos rfl]
    · apply setCoefficient_ok
      intro p hp hpn
      rcases setCoeffList_subset p hp with h1 | h1
      · exact hall p h1 hpn
      · rw [h1]
    · rw [lookupCoeff_setCoeffList, if_pos rfl]

end lp

namespace scheduling

open lp

/-- C10: for every valid input, built model and solver solution, the
decoded grid respects availability: a set cell `(r, t)` implies the
courier `r` is available at slot `t`, because candidate variables only
cover slots where their courier is available and the decoder only sets
slots inside a candidate's own range. -/
theorem claim_C10_availability
    (duration expected : List ℚ) (expectedOfType : List (String × List ℚ))
    (riderType : List String) (available : List (List Bool)) (guaranteed : List ℚ)
    (minDuration : ℚ) (model : LP) (f : String → ℚ) (g : List (List Bool)) (r t : ℕ)
    (hvalid : validInputB duration expected expectedOfType riderType available
      guaranteed = true)
    (hmk : makeLP duration expected expectedOfType riderType available guaranteed
      minDuration = .ok model)
    (hsolve : runSolve model (some f) = .ok (some g))
    (hgrid : gridAt g r t = true) :
    availAt available t r = true := by
  obtain ⟨hobj, hcon, hR, hT⟩ := makeLP_model_eq hvalid hmk
  obtain ⟨sol, hmin, hg⟩ := runSolve_some_inv hsolve
  obtain ⟨sat, hsat, hfold⟩ := minimize_ok_some_inv hmin
  have hsolvars : ∀ q ∈ sol.terms, q.1 ∈ sat.terms.map fun p => p.1 := by
    intro q hq
    rcases fold_setCoeff_subset (fun p => f p.1.name) sat.getVarCoefficients
      LinExpr.empty sol hfold q hq with h1 | h1
    · simp [LinExpr.empty] at h1
    · exact h1
  have hsatvars := saturate_ok_subset hsat
  have hvarclass : ∀ v : Var, v ∈ (sat.terms.map fun p => p.1) →
      (∃ b : AuxData, IsCandidate duration available minDuration guaranteed.length
        expected.length b ∧ v = candVarOf b) ∨
      ∃ r2, v = timeVarOf guaranteed r2 := by
    intro v hv
    obtain ⟨q, hq, rfl⟩ := List.mem_map.mp hv
    rcases hsatvars q hq with h2 | ⟨c2, h2⟩
    · rw [constraintVars] at h2
      obtain ⟨con, hcon2, hw⟩ := List.mem_flatMap.mp h2
      obtain ⟨p, hp, hpe⟩ := List.mem_map.mp hw
      rcases hcon con hcon2 p hp with h3 | h3
      · obtain ⟨q2, hq2, hq2e⟩ := List.mem_map.mp h3
        left
        exact ⟨q2.1, ((allCandidates_mem duration available minDuration
          guaranteed.length expected.length q2.1 q2.2).mp hq2).1,
          (hq2e.trans hpe).symm⟩
      · obtain ⟨r2, hr2⟩ := h3
        right
        exact ⟨r2, by rw [← hpe, hr2]⟩
    · rw [hobj] at h2
      rcases List.mem_append.mp h2 with h3 | h3
      · obtain ⟨q2, hq2, hq2e⟩ := List.mem_map.mp h3
        left
        refine ⟨q2.1, ((allCandidates_mem duration available minDuration
          guaranteed.length expected.length q2.1 q2.2).mp hq2).1, ?_⟩
        have h4 := congrArg Prod.fst hq2e
        simpa using h4.symm
      · obtain ⟨r2, -, hr2e⟩ := List.mem_map.mp h3
        right
        have h4 := congrArg Prod.fst hr2e
        exact ⟨r2, by simpa using h4.symm⟩
  have haux : ∀ p ∈ sol.terms, ∀ a : AuxData, p.1.auxData = some a →
      a.rider < model.numRiders ∧ a.t2 < model.numTimeSlices := by
    intro p hp a ha
    rcases hvarclass p.1 (hsolvars p hp) with ⟨b, hb, hpb⟩ | ⟨r2, hpr⟩
    · rw [hpb, candVarOf_auxData] at ha
      injection ha with ha2
      rw [← ha2, hR, hT]
      exact ⟨hb.1, hb.2.2.1⟩
    · rw [hpr, timeVarOf_auxData] at ha
      cases ha
  have hdec := decode_spec model.numRiders model.numTimeSlices sol haux
  rw [hg] at hgrid
  obtain ⟨p, hp, a, ha, hval, hrr, ht1, ht2⟩ := (hdec.2.2 r t).mp hgrid
  rcases hvarclass p.1 (hsolvars p hp) with ⟨b, hb, hpb⟩ | ⟨r2, hpr⟩
  · rw [hpb, candVarOf_auxData] at ha
    injection ha with ha2
    subst ha2
    rw [← hrr]
    exact hb.2.2.2.1 t ht1 ht2
  · rw [hpr, timeVarOf_auxData] at ha
    cases ha

/-- Witness for C10 on the one-slot instance solved with the all-ones
oracle. -/
theorem claim_C10_witness : availAt avC3 0 0 = true :=
  claim_C10_availability durC3 expC3 eotC3 rtC3 avC3 guC3 1 lpC3 oneVal [[true]]
    0 0 validC3 makeLP_C3 runSolve_C3 rfl

end scheduling
